import Mathlib

/-!
CQThreadPool.hpp: the worker-thread pool.

A shallow embedding of `class threadpool` (src/CQThreadPool.hpp).

* The member functions (`begin`, `resize`, `commitTask`, `close`, ...) are pure
  functions on the record `threadpool`: a call that no other thread
  interleaves with.  A call of `begin` in progress is a schedule of
  `Event.spawn`s (its `_initPool_` calls) between which workers execute
  statements; `resizeWith` is `resize` for whatever its two separate loads of
  the counters returned.
* A worker thread (the lambda of `_initPool_`) is a record of the index it
  captured and a program counter; `workerStep` executes the next statement of
  one worker, so that a list of `Event`s is one interleaving of the threads.
* `std::atomic<unsigned int>` arithmetic is arithmetic modulo `2^32`.
* `task_cond_var.wait(lock, pred)` is a guarded step: a waiting worker cannot
  move while `pred` is false.
* `std::packaged_task` and `std::future` come from the standard library; they
  are represented by `packaged_task_call` and the `futures` table.
-/

namespace CQThreadPool

/-! ## Data model -/

/-- The constant of `#define MAX_THREAD_NUM 2048`. -/
def MAX_THREAD_NUM : Nat := 2048

/-- Number of values of an `unsigned int` (32 bits). -/
def UINT : Nat := 4294967296

/-- Postfix `x++` on a `std::atomic<unsigned int>`. -/
def uinc (x : Nat) : Nat := (x + 1) % UINT

/-- Postfix `x--` on a `std::atomic<unsigned int>` (0 wraps to `UINT - 1`). -/
def udec (x : Nat) : Nat := if x % UINT = 0 then UINT - 1 else x % UINT - 1

/-- What running the callable bound at `commitTask` produces: a return value,
or an exception thrown by the body. -/
inductive Outcome where
  | value (v : Int)
  | failure (what : String)
deriving DecidableEq

/-- One entry of `tasks`: the lambda `[task]() {(*task)();}` around the
`packaged_task` created by `commitTask`.  `id` names the shared state (the
future returned to the caller); `body` is the bound callable. -/
structure Task where
  id : Nat
  body : Outcome
deriving DecidableEq

/-- Where a worker thread stands inside the lambda of `_initPool_`. -/
inductive PC where
  /-- in `task_cond_var.wait` (line 61) -/
  | waiting
  /-- after `tasks.pop()` (line 67), lock released -/
  | holding (t : Task)
  /-- after `idle_thread_num--` (line 72) -/
  | decd (t : Task)
  /-- after `work_thread_num++` (line 72), about to call `task()` -/
  | ready (t : Task)
  /-- inside `task()` (line 73) -/
  | running (t : Task)
  /-- the call `task()` has returned -/
  | finished
  /-- after `idle_thread_num++` (line 74) -/
  | incd
  /-- the lambda has returned (line 65) -/
  | exited
  /-- an exception left `task()`: the thread function was left by an
  exception (`std::terminate`) -/
  | terminated
deriving DecidableEq

/-- One element of `pool`: the thread started by `_initPool_`, with the
`index` its lambda captured. -/
structure Worker where
  index : Nat
  pc : PC
deriving DecidableEq

/-- The members of `class threadpool` (lines 32-48), followed by the
bookkeeping of the standard-library objects handed out by `commitTask`. -/
structure threadpool where
  /-- member `std::vector<std::thread> pool` -/
  pool : List Worker
  /-- member `std::vector<bool> stoped` -/
  stoped : List Bool
  /-- member `std::queue<Task> tasks`; the head of the list is `front()` -/
  tasks : List Task
  /-- member `std::atomic<unsigned int> idle_thread_num` -/
  idle_thread_num : Nat
  /-- member `std::atomic<unsigned int> work_thread_num` -/
  work_thread_num : Nat
  freedom_pool : Bool
  pool_stoped : Bool
  /-- number of `packaged_task`s created so far; the next one gets this id -/
  nextId : Nat
  /-- ids of the tasks whose `task()` call has begun, in that order -/
  started : List Nat
  /-- the shared states that have been made ready, in the order in which
  they were settled -/
  futures : List (Nat × Outcome)
deriving DecidableEq

/-! ## Member functions -/

/-- Constructor (line 88).  It assigns `work_thread_num`, `freedom_pool` and
`pool_stoped`; `idle_thread_num` is default-initialised and never assigned, so
it keeps the value `garbage` found in the object's storage. -/
def threadpool_ctor (garbage : Nat) : threadpool :=
  { pool := [], stoped := [], tasks := [],
    idle_thread_num := garbage % UINT,
    work_thread_num := 0, freedom_pool := false, pool_stoped := false,
    nextId := 0, started := [], futures := [] }

/-- Body of `_initPool_` (lines 50-78): capture `index = pool.size()`, push a
false stop flag, `idle_thread_num++`, start the thread (which goes to the
wait of line 61). -/
def _initPool_ (p : threadpool) : threadpool :=
  let index := p.pool.length % UINT
  { p with
    stoped := p.stoped ++ [false],
    idle_thread_num := uinc p.idle_thread_num,
    pool := p.pool ++ [{ index := index, pc := PC.waiting }] }

/-- Body of `_checkSize_` (lines 80-85). -/
def _checkSize_ (size : Nat) : Nat :=
  let size := if size < 1 then 1 else size
  let size := if size > MAX_THREAD_NUM then MAX_THREAD_NUM else size
  size

/-- A counting loop whose body is `_initPool_()`; `n` is the number of
iterations left. -/
def initLoop : Nat → threadpool → threadpool
  | 0, p => p
  | n + 1, p => initLoop n (_initPool_ p)

/-- Body of `begin` (lines 125-131); `for (s = 0; s < size; s++)` runs
`size` times. -/
def begin (size : Nat) (freedom_threads : Bool) (p : threadpool) : threadpool :=
  let p := { p with pool_stoped := false }
  let p := { p with freedom_pool := freedom_threads }
  let size := _checkSize_ size
  initLoop size p

/-- The range-for of line 143 over `stoped`: `need` is `as - sz`, `rs` the
running count; returns the flags after the loop. -/
def stopLoop (need : Nat) : List Bool → Nat → List Bool
  | [], _ => []
  | s :: rest, rs =>
    let s1 := if !s then true else s
    let rs1 := if !s then rs + 1 else rs
    if rs1 == need then s1 :: rest else s1 :: stopLoop need rest rs1

/-- The value of `idle_thread_num + work_thread_num` (line 139): a sum of
two `unsigned int`s. -/
def aliveNum (p : threadpool) : Nat :=
  (p.idle_thread_num + p.work_thread_num) % UINT

/-- Body of `resize` (lines 134-144) when the two atomic loads of line 139
return `idleRead` and `workRead`. They are separate loads, a worker may update
a counter between them, so the two values need not be the counters of one
state; `as` is their `unsigned int` sum. `for (s = as; s < sz; s++)` runs
`sz - as` times. -/
def resizeWith (idleRead workRead : Nat) (sz : Nat) (p : threadpool) : threadpool :=
  let p := { p with pool_stoped := false }
  let sz := _checkSize_ sz
  let as := (idleRead + workRead) % UINT
  let p := if sz > as then initLoop (sz - as) p else p
  let p := if sz < as then { p with stoped := stopLoop (as - sz) p.stoped 0 } else p
  p

/-- A call of `resize` during which no worker updates a counter between the
two loads of line 139: both loads read the counters of `p`. -/
def resize (sz : Nat) (p : threadpool) : threadpool :=
  resizeWith p.idle_thread_num p.work_thread_num sz p

def idleNum (p : threadpool) : Nat := p.idle_thread_num

def workNum (p : threadpool) : Nat := p.work_thread_num

def stopTask (p : threadpool) : threadpool := { p with pool_stoped := true }

def restartTask (p : threadpool) : threadpool := { p with pool_stoped := false }

/-- Body of `close` (line 155). -/
def close (p : threadpool) : threadpool :=
  { p with stoped := p.stoped.map (fun _ => true), pool_stoped := true }

def hasStopedPool (p : threadpool) : Bool := p.pool_stoped

/-- Body of `commitTask` (lines 106-122).  The result is the exception
message, or the id of the future handed back. -/
def commitTask (body : Outcome) (p : threadpool) : threadpool × Except String Nat :=
  if hasStopedPool p then (p, Except.error "the threadPool is stopped.")
  else
    let task : Task := { id := p.nextId, body := body }
    ({ p with tasks := p.tasks ++ [task], nextId := p.nextId + 1 }, Except.ok task.id)

/-- The loop `while (work_thread_num) {}` of `waitAllTaskRunOver` (line 159)
is left by a poll that reads 0: `true` when a poll made in state `p` returns
to the caller. -/
def waitAllTaskRunOver (p : threadpool) : Bool := p.work_thread_num == 0

/-! ## Standard-library objects -/

/-- What one call of `std::packaged_task::operator()` does. -/
structure Invocation where
  /-- the outcome stored in the shared state -/
  stored : Outcome
  /-- the exception that propagates to the caller of `operator()`, if any -/
  escaped : Option String
deriving DecidableEq

/-- Semantics of `std::packaged_task<R()>::operator()`: the return value of the stored
callable, or the exception it throws, is stored in the shared state; the call
itself returns normally. -/
def packaged_task_call (body : Outcome) : Invocation :=
  { stored := body, escaped := none }

/-- Result of `std::future::get()` for the shared state `id`: `none` while it is not
ready (the reader blocks), else the stored outcome (`failure` is rethrown). -/
def future_get (p : threadpool) (id : Nat) : Option Outcome :=
  (p.futures.find? (fun e => e.1 == id)).map Prod.snd

/-! ## The worker thread -/

/-- Replace the program counter of the worker in slot `k`. -/
def setPC (k : Nat) (w : Worker) (pc : PC) (p : threadpool) : threadpool :=
  { p with pool := p.pool.set k { w with pc := pc } }

/-- The next statement of the worker in slot `k` (lines 56-76); `none` when
the worker cannot move (blocked in `wait`, or its thread has ended). -/
def workerStep (k : Nat) (p : threadpool) : Option threadpool :=
  match p.pool[k]? with
  | none => none
  | some w =>
    match w.pc with
    | PC.waiting =>
      match p.stoped[w.index]? with
      | none => none
      | some true =>
        some (setPC k w PC.exited { p with idle_thread_num := udec p.idle_thread_num })
      | some false =>
        match p.tasks with
        | [] => none
        | t :: rest => some (setPC k w (PC.holding t) { p with tasks := rest })
    | PC.holding t =>
      some (setPC k w (PC.decd t) { p with idle_thread_num := udec p.idle_thread_num })
    | PC.decd t =>
      some (setPC k w (PC.ready t) { p with work_thread_num := uinc p.work_thread_num })
    | PC.ready t =>
      some (setPC k w (PC.running t) { p with started := p.started ++ [t.id] })
    | PC.running t =>
      let r := packaged_task_call t.body
      let p := { p with futures := p.futures ++ [(t.id, r.stored)] }
      match r.escaped with
      | none => some (setPC k w PC.finished p)
      | some _ => some (setPC k w PC.terminated p)
    | PC.finished =>
      some (setPC k w PC.incd { p with idle_thread_num := uinc p.idle_thread_num })
    | PC.incd =>
      some (setPC k w PC.waiting { p with work_thread_num := udec p.work_thread_num })
    | PC.exited => none
    | PC.terminated => none

/-! ## Interleavings -/

/-- One atomic step of the whole program: a call of a member function by a
client thread, or the next statement of one worker. -/
inductive Event where
  | spawn
  | begin (size : Nat) (freedom_threads : Bool)
  | resize (sz : Nat)
  | commitTask (body : Outcome)
  | stopTask
  | restartTask
  | close
  | worker (k : Nat)
  /-- a call of `resize` whose two loads of line 139 returned `idleRead` and
  `workRead` -/
  | resizeRacing (idleRead workRead sz : Nat)
deriving DecidableEq

/-- Effect of one event; `none` when the event cannot happen in `p`. -/
def step (p : threadpool) : Event → Option threadpool
  | Event.spawn => some (_initPool_ p)
  | Event.begin size f => some (begin size f p)
  | Event.resize sz => some (resize sz p)
  | Event.commitTask body => some (commitTask body p).1
  | Event.stopTask => some (stopTask p)
  | Event.restartTask => some (restartTask p)
  | Event.close => some (close p)
  | Event.worker k => workerStep k p
  | Event.resizeRacing idleRead workRead sz => some (resizeWith idleRead workRead sz p)

/-- Run a schedule from `p`. -/
def run (p : threadpool) : List Event → Option threadpool
  | [] => some p
  | e :: es =>
    match step p e with
    | none => none
    | some q => run q es

/-- States the program can be in when the storage of `idle_thread_num` held
`garbage` at construction. -/
def Reachable (garbage : Nat) (p : threadpool) : Prop :=
  ∃ es : List Event, run (threadpool_ctor garbage) es = some p

/-- The worker slots that `n` consecutive calls of `_initPool_` add to a pool
that holds `len` slots. -/
def newSlots (len : Nat) : Nat → List Worker
  | 0 => []
  | n + 1 => { index := len % UINT, pc := PC.waiting } :: newSlots (len + 1) n


/-- Events that leave the submission gate alone: everything but `begin`,
`resize` and `restartTask`. -/
def keepsGate : Event → Bool
  | Event.begin _ _ => false
  | Event.resize _ => false
  | Event.resizeRacing _ _ _ => false
  | Event.restartTask => false
  | _ => true

/-- Number of stop flags that are not set. -/
def unsetFlags (p : threadpool) : Nat := List.count false p.stoped

/-- The pool after `begin(2)` and `close()`: both workers are still parked in
`wait`, both stop flags are set. -/
def poolClosed2 : threadpool := close (begin 2 false (threadpool_ctor 0))

/-- The pool after `begin(4)` and ten `commitTask` calls, before any worker
has been scheduled. -/
def poolTenQueued : threadpool :=
  Nat.repeat (fun p => (commitTask (Outcome.value 1) p).1) 10
    (begin 4 false (threadpool_ctor 0))

/-! ## Bookkeeping over the worker slots -/

/-- What a worker at this point has added to `idle_thread_num`: 1 from its
spawn until its `idle_thread_num--`, and again after its `idle_thread_num++`. -/
def PC.idleC : PC → Nat
  | PC.waiting => 1
  | PC.holding _ => 1
  | PC.incd => 1
  | _ => 0

/-- What a worker at this point has added to `work_thread_num`: 1 between its
`work_thread_num++` and its `work_thread_num--`. -/
def PC.workC : PC → Nat
  | PC.ready _ => 1
  | PC.running _ => 1
  | PC.finished => 1
  | PC.incd => 1
  | PC.terminated => 1
  | _ => 0

/-- Is the worker spawned and still inside its loop (1) or not (0). -/
def PC.liveC : PC → Nat
  | PC.exited => 0
  | PC.terminated => 0
  | _ => 1

/-- Is the worker between `idle_thread_num--` and `work_thread_num++`. -/
def PC.decdC : PC → Nat
  | PC.decd _ => 1
  | _ => 0

/-- Is the worker between `idle_thread_num++` and `work_thread_num--`. -/
def PC.incdC : PC → Nat
  | PC.incd => 1
  | _ => 0

/-- The task a worker has taken from the queue and not yet completed. -/
def PC.pending : PC → List Nat
  | PC.holding t => [t.id]
  | PC.decd t => [t.id]
  | PC.ready t => [t.id]
  | PC.running t => [t.id]
  | _ => []

/-- The task a worker has taken from the queue and not yet started. -/
def PC.unstarted : PC → List Nat
  | PC.holding t => [t.id]
  | PC.decd t => [t.id]
  | PC.ready t => [t.id]
  | _ => []

/-- Sum of a per-worker quantity over the slots. -/
def sumBy (f : PC → Nat) : List Worker → Nat
  | [] => 0
  | w :: ws => f w.pc + sumBy f ws

/-- Concatenation of a per-worker list over the slots. -/
def gather (f : PC → List Nat) : List Worker → List Nat
  | [] => []
  | w :: ws => f w.pc ++ gather f ws

/-- Number of worker slots that have been spawned and have not yet left their
loop. -/
def liveNum (p : threadpool) : Nat := sumBy PC.liveC p.pool

/-- Ids of the tasks that have completed (their future is settled), in the
order of completion. -/
def completed (p : threadpool) : List Nat := p.futures.map Prod.fst

/-- Ids of the tasks in the queue, front first. -/
def queued (p : threadpool) : List Nat := p.tasks.map Task.id

/-- Assign the two plain flags of the pool. -/
def setFlags (gate freedom : Bool) (p : threadpool) : threadpool :=
  { p with pool_stoped := gate, freedom_pool := freedom }

/-- The invariant of the counters, for a pool built where `idle_thread_num`
held `g`: each counter is the sum of what the workers have added to it. -/
def CountersOk (g : Nat) (p : threadpool) : Prop :=
  p.idle_thread_num = (g + sumBy PC.idleC p.pool) % UINT ∧
  p.work_thread_num = sumBy PC.workC p.pool % UINT

/-- The invariant of the slots: the two collections have one entry per slot,
every worker captured its position (as an unsigned int), a worker that left
its loop had its stop flag set, and no worker was ended by an exception. -/
def SlotsOk (p : threadpool) : Prop :=
  p.stoped.length = p.pool.length ∧
  (∀ (k : Nat) (w : Worker), p.pool[k]? = some w → w.index = k % UINT) ∧
  (∀ w ∈ p.pool, w.pc = PC.exited → p.stoped[w.index]? = some true) ∧
  (∀ w ∈ p.pool, w.pc ≠ PC.terminated)

/-- The invariant of the tasks: every id handed out by `commitTask` is in
exactly one place: completed, taken by one worker, or in the queue; and the
started tasks are the completed ones and those inside `task()`. -/
def TasksOk (p : threadpool) : Prop :=
  List.Perm (completed p ++ gather PC.pending p.pool ++ queued p) (List.range p.nextId) ∧
  List.Perm (p.started ++ gather PC.unstarted p.pool ++ queued p) (List.range p.nextId)

/-- The three invariants together. -/
def Inv (g : Nat) (p : threadpool) : Prop :=
  CountersOk g p ∧ SlotsOk p ∧ TasksOk p

/-- The schedule `begin(1)`, one `commitTask`, then `n` statements of the
worker in slot 0. -/
def oneTask (n : Nat) : List Event :=
  Event.begin 1 false :: Event.commitTask (Outcome.value 1) ::
    List.replicate n (Event.worker 0)

/-- Is the event a statement of a worker. -/
def isWorkerEvent : Event → Bool
  | Event.worker _ => true
  | _ => false

/-- No worker can execute a statement: every live worker is blocked in
`wait`. -/
def quiescent (p : threadpool) : Bool :=
  (List.range p.pool.length).all (fun k => (workerStep k p).isNone)

/-- The task the worker in slot `k` has taken and not yet completed. -/
def pendingAt (p : threadpool) (k : Nat) : List Nat :=
  match p.pool[k]? with
  | some w => w.pc.pending
  | none => []

/-- The task the worker in slot `k` has taken and not yet started. -/
def unstartedAt (p : threadpool) (k : Nat) : List Nat :=
  match p.pool[k]? with
  | some w => w.pc.unstarted
  | none => []

/-- Is the event a worker statement or a `commitTask` call. -/
def isWorkerOrCommit : Event → Bool
  | Event.worker _ => true
  | Event.commitTask _ => true
  | _ => false

/-- The invariant of the queue: ids grow from the front to the back of the
queue (`commitTask` hands out growing ids and pushes at the back), and a task
taken by a worker is older than every task still queued. -/
def OrderOk (p : threadpool) : Prop :=
  List.Pairwise (fun a b => a < b) (queued p) ∧
  ∀ i ∈ gather PC.pending p.pool, ∀ j ∈ queued p, i < j

/-- The pool after `begin(1)` and two `commitTask` calls. -/
def poolOneWorker : threadpool :=
  (commitTask (Outcome.value 2)
    (commitTask (Outcome.value 1) (begin 1 false (threadpool_ctor 0))).1).1

/-- The single worker completes the first task, a third task is submitted,
and the worker takes the second task. -/
def oneWorkerSchedule : List Event :=
  List.replicate 7 (Event.worker 0) ++ [Event.commitTask (Outcome.value 3), Event.worker 0]

/-- The schedule `begin(1)`, a task whose body throws, and the worker up to
the call of `task()`. -/
def failingSchedule : List Event :=
  Event.begin 1 false :: Event.commitTask (Outcome.failure "division by zero") ::
    List.replicate 4 (Event.worker 0)

/-- The pool in which the single worker is inside `task()` of a task whose
body throws. -/
def poolFailing : threadpool :=
  (run (threadpool_ctor 0) failingSchedule).getD (threadpool_ctor 0)

/-- The pool after `begin(4)` and `resize(2)`, before any worker has been
scheduled: two stop flags are set, all four workers are still parked and
counted. -/
def poolShrinking : threadpool := resize 2 (begin 4 false (threadpool_ctor 0))

/-- Every worker whose stop flag is set has left its loop. -/
def stopsObserved (p : threadpool) : Prop :=
  ∀ w ∈ p.pool, p.stoped[w.index]? = some true → w.pc = PC.exited

/-- The pool after `begin(4)`. -/
def poolFour : threadpool := begin 4 false (threadpool_ctor 0)

/-- The pool after `begin(4)` and one `commitTask`. -/
def poolFourOneTask : threadpool := (commitTask (Outcome.value 1) poolFour).1

/-! ## A call of `begin` in progress -/

/-- What can happen while a call of `begin` is in progress: the `_initPool_`
calls of its loop (`Event.spawn`), statements of the workers (the threads it
has started run while the loop goes on), `commitTask` calls of other
threads. -/
def isBeginEvent : Event → Bool
  | Event.spawn => true
  | Event.worker _ => true
  | Event.commitTask _ => true
  | _ => false

/-- Is the next statement of the worker in slot `k` its `idle_thread_num++`
of line 74 (1) or not (0). -/
def idleIncOf (p : threadpool) (k : Nat) : Nat :=
  match p.pool[k]? with
  | some w =>
    match w.pc with
    | PC.finished => 1
    | _ => 0
  | none => 0

/-- Is the next statement of the worker in slot `k` an `idle_thread_num--`,
that of line 72 or that of line 65 (1), or not (0). -/
def idleDecOf (p : threadpool) (k : Nat) : Nat :=
  match p.pool[k]? with
  | some w =>
    match w.pc with
    | PC.holding _ => 1
    | PC.waiting => if p.stoped[w.index]? = some true then 1 else 0
    | _ => 0
  | none => 0

/-- Number of `idle_thread_num++` a worker executes in this event. -/
def eventIdleInc (p : threadpool) : Event → Nat
  | Event.worker k => idleIncOf p k
  | _ => 0

/-- Number of `idle_thread_num--` a worker executes in this event. -/
def eventIdleDec (p : threadpool) : Event → Nat
  | Event.worker k => idleDecOf p k
  | _ => 0

/-- Number of `idle_thread_num++` executed by workers along a schedule. -/
def workerIdleIncs (p : threadpool) : List Event → Nat
  | [] => 0
  | e :: es =>
    match step p e with
    | none => 0
    | some q => eventIdleInc p e + workerIdleIncs q es

/-- Number of `idle_thread_num--` executed by workers along a schedule. -/
def workerIdleDecs (p : threadpool) : List Event → Nat
  | [] => 0
  | e :: es =>
    match step p e with
    | none => 0
    | some q => eventIdleDec p e + workerIdleDecs q es

/-- Contribution of an event to the number of slots: 1 for `_initPool_`. -/
def spawnCount : Event → Nat
  | Event.spawn => 1
  | _ => 0

/-- Number of `_initPool_` calls in a schedule. -/
def spawns : List Event → Nat
  | [] => 0
  | e :: es => spawnCount e + spawns es

/-- The schedule in which `begin(2)` starts its first thread, that thread
takes the queued task and executes `idle_thread_num--`, and `begin` then
starts its second thread. -/
def beginRacing : List Event :=
  [Event.spawn, Event.worker 0, Event.worker 0, Event.spawn]

/-- The pool with one task submitted before any worker exists. -/
def poolQueued : threadpool := (commitTask (Outcome.value 1) (threadpool_ctor 0)).1

/-- The schedule `begin(3)`, one `commitTask`, and the woken worker up to and
including its `idle_thread_num--, work_thread_num++` of line 72. -/
def racingLoads : List Event :=
  [Event.begin 3 false, Event.commitTask (Outcome.value 1), Event.worker 0, Event.worker 0,
    Event.worker 0]
/-! ## Sequential behaviour of the member functions -/

/-- The decrement is a subtraction modulo `2^32`. -/
theorem udec_eq (x : Nat) : udec x = (x + (UINT - 1)) % UINT := by
  simp only [udec, UINT]
  split <;> omega

theorem checkSize_eq (size : Nat) : _checkSize_ size = min (max size 1) 2048 := by
  simp only [_checkSize_, MAX_THREAD_NUM]
  split <;> split <;> omega

theorem checkSize_pos (size : Nat) : 1 ≤ _checkSize_ size := by
  rw [checkSize_eq]; omega

theorem checkSize_le (size : Nat) : _checkSize_ size ≤ 2048 := by
  rw [checkSize_eq]; omega

theorem newSlots_length (len n : Nat) : (newSlots len n).length = n := by
  induction n generalizing len with
  | zero => rfl
  | succ n ih => simp [newSlots, ih]

theorem newSlots_waiting (len n : Nat) : ∀ w ∈ newSlots len n, w.pc = PC.waiting := by
  induction n generalizing len with
  | zero => simp [newSlots]
  | succ n ih =>
    intro w hw
    simp only [newSlots, List.mem_cons] at hw
    rcases hw with rfl | hw
    · rfl
    · exact ih _ w hw

theorem initLoop_pool (n : Nat) (p : threadpool) :
    (initLoop n p).pool = p.pool ++ newSlots p.pool.length n := by
  induction n generalizing p with
  | zero => simp [initLoop, newSlots]
  | succ n ih => simp [initLoop, newSlots, ih, _initPool_]

theorem initLoop_stoped (n : Nat) (p : threadpool) :
    (initLoop n p).stoped = p.stoped ++ List.replicate n false := by
  induction n generalizing p with
  | zero => simp [initLoop]
  | succ n ih => simp [initLoop, ih, _initPool_, List.replicate_succ]

/-! ### The flag loop of `resize` -/

theorem stopLoop_true (need : Nat) (rest : List Bool) (rs : Nat) :
    stopLoop need (true :: rest) rs =
      if rs = need then true :: rest else true :: stopLoop need rest rs := by
  simp [stopLoop]

theorem stopLoop_false (need : Nat) (rest : List Bool) (rs : Nat) :
    stopLoop need (false :: rest) rs =
      if rs + 1 = need then true :: rest else true :: stopLoop need rest (rs + 1) := by
  simp [stopLoop]

theorem stopLoop_length (need : Nat) (l : List Bool) (rs : Nat) :
    (stopLoop need l rs).length = l.length := by
  induction l generalizing rs with
  | nil => rfl
  | cons s rest ih =>
    cases s
    · rw [stopLoop_false]; split <;> simp [ih]
    · rw [stopLoop_true]; split <;> simp [ih]

/-- Every flag is either unchanged by the loop or goes from false to true. -/
theorem stopLoop_mono (need : Nat) (l : List Bool) (rs : Nat) (i : Nat) (b : Bool)
    (h : l[i]? = some b) :
    (stopLoop need l rs)[i]? = some b ∨ (b = false ∧ (stopLoop need l rs)[i]? = some true) := by
  induction l generalizing rs i with
  | nil => simp at h
  | cons s rest ih =>
    cases i with
    | zero =>
      simp only [List.getElem?_cons_zero, Option.some.injEq] at h
      subst h
      cases s
      · rw [stopLoop_false]; split <;> simp
      · rw [stopLoop_true]; split <;> simp
    | succ i =>
      simp only [List.getElem?_cons_succ] at h
      cases s
      · rw [stopLoop_false]; split
        · left; simpa using h
        · simpa using ih _ _ h
      · rw [stopLoop_true]; split
        · left; simpa using h
        · simpa using ih _ _ h

/-- The loop turns the first `need - rs` unset flags (all of them when there
are fewer) into set flags. -/
theorem stopLoop_count (need : Nat) (l : List Bool) (rs : Nat) (h : rs < need) :
    List.count false (stopLoop need l rs) = List.count false l - (need - rs) := by
  induction l generalizing rs with
  | nil => simp [stopLoop]
  | cons s rest ih =>
    cases s with
    | true =>
      rw [stopLoop_true, if_neg (by omega)]
      simp [ih rs h]
    | false =>
      rw [stopLoop_false]
      by_cases hr : rs + 1 = need
      · rw [if_pos hr]; simp; omega
      · rw [if_neg hr]
        simp [ih (rs + 1) (by omega)]
        omega

/-! ## Steps of a worker -/

/-- The nine statements a worker can execute, as equations on the state. -/
theorem workerStep_cases {k : Nat} {p q : threadpool} (h : workerStep k p = some q) :
    ∃ w, p.pool[k]? = some w ∧
      ((w.pc = PC.waiting ∧ p.stoped[w.index]? = some true ∧
          q = setPC k w PC.exited { p with idle_thread_num := udec p.idle_thread_num }) ∨
       (∃ t rest, w.pc = PC.waiting ∧ p.stoped[w.index]? = some false ∧ p.tasks = t :: rest ∧
          q = setPC k w (PC.holding t) { p with tasks := rest }) ∨
       (∃ t, w.pc = PC.holding t ∧
          q = setPC k w (PC.decd t) { p with idle_thread_num := udec p.idle_thread_num }) ∨
       (∃ t, w.pc = PC.decd t ∧
          q = setPC k w (PC.ready t) { p with work_thread_num := uinc p.work_thread_num }) ∨
       (∃ t, w.pc = PC.ready t ∧
          q = setPC k w (PC.running t) { p with started := p.started ++ [t.id] }) ∨
       (∃ t, w.pc = PC.running t ∧
          q = setPC k w PC.finished { p with futures := p.futures ++ [(t.id, t.body)] }) ∨
       (w.pc = PC.finished ∧
          q = setPC k w PC.incd { p with idle_thread_num := uinc p.idle_thread_num }) ∨
       (w.pc = PC.incd ∧
          q = setPC k w PC.waiting { p with work_thread_num := udec p.work_thread_num })) := by
  unfold workerStep at h
  split at h
  · exact absurd h (by simp)
  · rename_i w hw
    refine ⟨w, hw, ?_⟩
    split at h
    · rename_i hpc
      split at h
      · exact absurd h (by simp)
      · rename_i hf
        left
        exact ⟨hpc, hf, (Option.some.inj h).symm⟩
      · rename_i hf
        split at h
        · exact absurd h (by simp)
        · rename_i t rest ht
          right; left
          exact ⟨t, rest, hpc, hf, ht, (Option.some.inj h).symm⟩
    · rename_i t hpc
      right; right; left
      exact ⟨t, hpc, (Option.some.inj h).symm⟩
    · rename_i t hpc
      right; right; right; left
      exact ⟨t, hpc, (Option.some.inj h).symm⟩
    · rename_i t hpc
      right; right; right; right; left
      exact ⟨t, hpc, (Option.some.inj h).symm⟩
    · rename_i t hpc
      right; right; right; right; right; left
      exact ⟨t, hpc, by simpa [packaged_task_call] using h.symm⟩
    · rename_i hpc
      right; right; right; right; right; right; left
      exact ⟨hpc, (Option.some.inj h).symm⟩
    · rename_i hpc
      right; right; right; right; right; right; right
      exact ⟨hpc, (Option.some.inj h).symm⟩
    · exact absurd h (by simp)
    · exact absurd h (by simp)


/-- A worker step changes neither the gate, the flags, nor the ids handed out. -/
theorem workerStep_keeps {k : Nat} {p q : threadpool} (h : workerStep k p = some q) :
    q.pool_stoped = p.pool_stoped ∧ q.stoped = p.stoped ∧ q.nextId = p.nextId ∧
    q.freedom_pool = p.freedom_pool ∧ q.pool.length = p.pool.length := by
  obtain ⟨w, _, hc⟩ := workerStep_cases h
  rcases hc with ⟨_, _, rfl⟩ | ⟨t, rest, _, _, _, rfl⟩ | ⟨t, _, rfl⟩ | ⟨t, _, rfl⟩ |
    ⟨t, _, rfl⟩ | ⟨t, _, rfl⟩ | ⟨_, rfl⟩ | ⟨_, rfl⟩ <;> simp [setPC]

theorem step_keepsGate {p q : threadpool} {e : Event} (h : step p e = some q)
    (he : keepsGate e = true) (hp : p.pool_stoped = true) : q.pool_stoped = true := by
  cases e with
  | spawn => simp only [step, Option.some.injEq] at h; subst h; simpa [_initPool_] using hp
  | begin size f => simp [keepsGate] at he
  | resize sz => simp [keepsGate] at he
  | commitTask body =>
    simp only [step, Option.some.injEq] at h; subst h
    simp [commitTask, hasStopedPool, hp]
  | stopTask => simp only [step, Option.some.injEq] at h; subst h; simp [stopTask]
  | restartTask => simp [keepsGate] at he
  | close => simp only [step, Option.some.injEq] at h; subst h; simp [close]
  | worker k =>
    simp only [step] at h
    rw [(workerStep_keeps h).1]; exact hp
  | resizeRacing i w sz => simp [keepsGate] at he

theorem run_keepsGate {p q : threadpool} {es : List Event} (h : run p es = some q)
    (hes : ∀ e ∈ es, keepsGate e = true) (hp : p.pool_stoped = true) :
    q.pool_stoped = true := by
  induction es generalizing p with
  | nil => simp only [run, Option.some.injEq] at h; subst h; exact hp
  | cons e es ih =>
    simp only [run] at h
    split at h
    · exact absurd h (by simp)
    · rename_i r hr
      exact ih h (fun e he => hes e (List.mem_cons_of_mem _ he))
        (step_keepsGate hr (hes _ (List.mem_cons_self _ _)) hp)


/-- The loop sets a whole front part of the flags and leaves the rest as it
is; the front part holds exactly the `need - rs` first unset flags (all of
them when there are fewer). -/
theorem stopLoop_front (need : Nat) (l : List Bool) (rs : Nat) (h : rs < need) :
    ∃ n, stopLoop need l rs = List.replicate (min n l.length) true ++ l.drop n ∧
      List.count false (l.take n) = min (need - rs) (List.count false l) := by
  induction l generalizing rs with
  | nil => exact ⟨0, by simp [stopLoop], by simp⟩
  | cons s rest ih =>
    cases s with
    | true =>
      rw [stopLoop_true, if_neg (by omega)]
      obtain ⟨n, h1, h2⟩ := ih rs h
      refine ⟨n + 1, ?_, ?_⟩
      · simp [h1, List.replicate_succ, Nat.succ_min_succ]
      · simpa using h2
    | false =>
      rw [stopLoop_false]
      by_cases hr : rs + 1 = need
      · rw [if_pos hr]
        refine ⟨1, by simp, ?_⟩
        simp
        omega
      · rw [if_neg hr]
        obtain ⟨n, h1, h2⟩ := ih (rs + 1) (by omega)
        refine ⟨n + 1, ?_, ?_⟩
        · simp [h1, List.replicate_succ, Nat.succ_min_succ]
        · simp [h2]
          omega

/-! ### The three branches of `resize` -/

theorem resizeWith_grow (i w sz : Nat) (p : threadpool)
    (h : (i + w) % UINT < _checkSize_ sz) :
    resizeWith i w sz p =
      initLoop (_checkSize_ sz - (i + w) % UINT) { p with pool_stoped := false } := by
  have h1 : ¬ _checkSize_ sz < (i + w) % UINT := by omega
  simp only [resizeWith, gt_iff_lt, h, if_true, h1, if_false]

theorem resizeWith_shrink (i w sz : Nat) (p : threadpool)
    (h : _checkSize_ sz < (i + w) % UINT) :
    resizeWith i w sz p =
      { p with pool_stoped := false,
               stoped := stopLoop ((i + w) % UINT - _checkSize_ sz) p.stoped 0 } := by
  have h1 : ¬ (i + w) % UINT < _checkSize_ sz := by omega
  simp only [resizeWith, gt_iff_lt, h, if_true, h1, if_false]

theorem resizeWith_same (i w sz : Nat) (p : threadpool)
    (h : _checkSize_ sz = (i + w) % UINT) :
    resizeWith i w sz p = { p with pool_stoped := false } := by
  simp only [resizeWith, gt_iff_lt, h, lt_irrefl, if_false]

theorem resize_grow (sz : Nat) (p : threadpool) (h : aliveNum p < _checkSize_ sz) :
    resize sz p = initLoop (_checkSize_ sz - aliveNum p) { p with pool_stoped := false } :=
  resizeWith_grow _ _ sz p h

theorem resize_shrink (sz : Nat) (p : threadpool) (h : _checkSize_ sz < aliveNum p) :
    resize sz p =
      { p with pool_stoped := false,
               stoped := stopLoop (aliveNum p - _checkSize_ sz) p.stoped 0 } :=
  resizeWith_shrink _ _ sz p h

theorem resize_same (sz : Nat) (p : threadpool) (h : _checkSize_ sz = aliveNum p) :
    resize sz p = { p with pool_stoped := false } :=
  resizeWith_same _ _ sz p h


/-! ### Sums and lists over the slots -/

theorem sumBy_append (f : PC → Nat) (l1 l2 : List Worker) :
    sumBy f (l1 ++ l2) = sumBy f l1 + sumBy f l2 := by
  induction l1 with
  | nil => simp [sumBy]
  | cons w ws ih => simp [sumBy, ih]; omega

theorem gather_append (f : PC → List Nat) (l1 l2 : List Worker) :
    gather f (l1 ++ l2) = gather f l1 ++ gather f l2 := by
  induction l1 with
  | nil => simp [gather]
  | cons w ws ih => simp [gather, ih]

theorem sumBy_set (f : PC → Nat) (l : List Worker) (k : Nat) (w w1 : Worker)
    (h : l[k]? = some w) : sumBy f (l.set k w1) + f w.pc = sumBy f l + f w1.pc := by
  induction l generalizing k with
  | nil => simp at h
  | cons a as ih =>
    cases k with
    | zero =>
      simp only [List.getElem?_cons_zero, Option.some.injEq] at h
      subst h
      simp only [List.set_cons_zero, sumBy]; omega
    | succ k =>
      simp only [List.getElem?_cons_succ] at h
      simp only [List.set_cons_succ, sumBy]
      have := ih k h
      omega

theorem gather_set (f : PC → List Nat) (l : List Worker) (k : Nat) (w w1 : Worker)
    (h : l[k]? = some w) :
    List.Perm (f w.pc ++ gather f (l.set k w1)) (f w1.pc ++ gather f l) := by
  induction l generalizing k with
  | nil => simp at h
  | cons a as ih =>
    cases k with
    | zero =>
      simp only [List.getElem?_cons_zero, Option.some.injEq] at h
      subst h
      simp only [List.set_cons_zero, gather]
      rw [← List.append_assoc, ← List.append_assoc]
      exact List.Perm.append_right _ List.perm_append_comm
    | succ k =>
      simp only [List.getElem?_cons_succ] at h
      simp only [List.set_cons_succ, gather]
      have h1 := ih k h
      refine List.perm_iff_count.2 (fun x => ?_)
      have h2 := List.perm_iff_count.1 h1 x
      simp only [List.count_append] at h2 ⊢
      omega

/-- An induction principle for the spawning loop. -/
theorem initLoop_induction (P : threadpool → Prop) (h : ∀ p, P p → P (_initPool_ p))
    (n : Nat) (p : threadpool) (hp : P p) : P (initLoop n p) := by
  induction n generalizing p with
  | zero => exact hp
  | succ n ih => exact ih _ (h p hp)

/-- Every event is one of four kinds: spawning some slots (possibly none) after
assigning the plain flags; setting stop flags; enqueueing a task; a worker
statement. -/
theorem step_kinds {p q : threadpool} {e : Event} (h : step p e = some q) :
    (∃ n gate fr, q = initLoop n (setFlags gate fr p)) ∨
    (∃ gate fr fl, q = { setFlags gate fr p with stoped := fl } ∧
        fl.length = p.stoped.length ∧
        ∀ (i : Nat) (b : Bool), p.stoped[i]? = some b →
          fl[i]? = some b ∨ (b = false ∧ fl[i]? = some true)) ∨
    (∃ body, q = { p with tasks := p.tasks ++ [{ id := p.nextId, body := body }],
                          nextId := p.nextId + 1 }) ∨
    (∃ k, workerStep k p = some q) := by
  have hid : ∀ r : threadpool, setFlags r.pool_stoped r.freedom_pool r = r := fun r => rfl
  cases e with
  | spawn =>
    simp only [step, Option.some.injEq] at h; subst h
    exact Or.inl ⟨1, p.pool_stoped, p.freedom_pool, rfl⟩
  | begin size f =>
    simp only [step, Option.some.injEq] at h; subst h
    exact Or.inl ⟨_checkSize_ size, false, f, rfl⟩
  | resize sz =>
    simp only [step, Option.some.injEq] at h; subst h
    rcases Nat.lt_trichotomy (aliveNum p) (_checkSize_ sz) with h | h | h
    · exact Or.inl ⟨_checkSize_ sz - aliveNum p, false, p.freedom_pool, resize_grow _ _ h⟩
    · exact Or.inl ⟨0, false, p.freedom_pool, resize_same _ _ h.symm⟩
    · refine Or.inr (Or.inl ⟨false, p.freedom_pool, _, resize_shrink _ _ h, ?_, ?_⟩)
      · exact stopLoop_length _ _ _
      · exact fun i b hb => stopLoop_mono _ _ _ i b hb
  | commitTask body =>
    simp only [step, Option.some.injEq] at h; subst h
    by_cases hg : hasStopedPool p = true
    · exact Or.inl ⟨0, p.pool_stoped, p.freedom_pool, by simp [commitTask, hg, initLoop, hid]⟩
    · exact Or.inr (Or.inr (Or.inl ⟨body, by simp [commitTask, hg]⟩))
  | stopTask =>
    simp only [step, Option.some.injEq] at h; subst h
    exact Or.inl ⟨0, true, p.freedom_pool, rfl⟩
  | restartTask =>
    simp only [step, Option.some.injEq] at h; subst h
    exact Or.inl ⟨0, false, p.freedom_pool, rfl⟩
  | close =>
    simp only [step, Option.some.injEq] at h; subst h
    refine Or.inr (Or.inl ⟨true, p.freedom_pool, p.stoped.map (fun _ => true), rfl, ?_, ?_⟩)
    · simp
    · intro i b hb
      cases b
      · right; simp only [List.getElem?_map, hb]; simp
      · left; simp only [List.getElem?_map, hb]; simp
  | worker k => exact Or.inr (Or.inr (Or.inr ⟨k, h⟩))
  | resizeRacing i w sz =>
    simp only [step, Option.some.injEq] at h; subst h
    rcases Nat.lt_trichotomy ((i + w) % UINT) (_checkSize_ sz) with h | h | h
    · exact Or.inl ⟨_checkSize_ sz - (i + w) % UINT, false, p.freedom_pool,
        resizeWith_grow _ _ _ _ h⟩
    · exact Or.inl ⟨0, false, p.freedom_pool, resizeWith_same _ _ _ _ h.symm⟩
    · refine Or.inr (Or.inl ⟨false, p.freedom_pool, _, resizeWith_shrink _ _ _ _ h, ?_, ?_⟩)
      · exact stopLoop_length _ _ _
      · exact fun i b hb => stopLoop_mono _ _ _ i b hb


/-! ### The counters -/

theorem sumBy_ge (f : PC → Nat) (l : List Worker) (k : Nat) (w : Worker)
    (h : l[k]? = some w) : f w.pc ≤ sumBy f l := by
  induction l generalizing k with
  | nil => simp at h
  | cons a as ih =>
    cases k with
    | zero =>
      simp only [List.getElem?_cons_zero, Option.some.injEq] at h
      subst h
      simp only [sumBy]; omega
    | succ k =>
      simp only [List.getElem?_cons_succ] at h
      simp only [sumBy]
      have := ih k h
      omega

theorem sumBy_set_eq (f : PC → Nat) (l : List Worker) (k : Nat) (w w1 : Worker)
    (h : l[k]? = some w) : sumBy f (l.set k w1) = sumBy f l + f w1.pc - f w.pc := by
  have := sumBy_set f l k w w1 h
  omega

theorem countersOk_ctor (g : Nat) : CountersOk g (threadpool_ctor g) := by
  simp [CountersOk, threadpool_ctor, sumBy]

theorem countersOk_initPool (g : Nat) (p : threadpool) (h : CountersOk g p) :
    CountersOk g (_initPool_ p) := by
  obtain ⟨h1, h2⟩ := h
  refine ⟨?_, ?_⟩
  · simp only [_initPool_, sumBy_append, sumBy, PC.idleC, uinc, h1, UINT]
    omega
  · simp only [_initPool_, sumBy_append, sumBy, PC.workC, h2, UINT]
    omega

theorem countersOk_step (g : Nat) {p q : threadpool} {e : Event} (h : step p e = some q)
    (hp : CountersOk g p) : CountersOk g q := by
  rcases step_kinds h with ⟨n, gate, fr, rfl⟩ | ⟨gate, fr, fl, rfl, -, -⟩ | ⟨body, rfl⟩ | ⟨k, hk⟩
  · exact initLoop_induction _ (countersOk_initPool g) n _ hp
  · exact hp
  · exact hp
  · obtain ⟨h1, h2⟩ := hp
    obtain ⟨w, hw, hc⟩ := workerStep_cases hk
    have hI := sumBy_ge PC.idleC p.pool k w hw
    have hW := sumBy_ge PC.workC p.pool k w hw
    rcases hc with ⟨hpc, _, rfl⟩ | ⟨t, rest, hpc, _, _, rfl⟩ | ⟨t, hpc, rfl⟩ | ⟨t, hpc, rfl⟩ |
      ⟨t, hpc, rfl⟩ | ⟨t, hpc, rfl⟩ | ⟨hpc, rfl⟩ | ⟨hpc, rfl⟩
    all_goals
      simp only [CountersOk, setPC, sumBy_set_eq _ _ _ _ _ hw, hpc, PC.idleC, PC.workC, h1, h2,
        uinc, udec_eq, UINT] at hI hW ⊢
      omega


/-! ### The slots -/

theorem getElem?_lt {α : Type} {l : List α} {i : Nat} {a : α} (h : l[i]? = some a) :
    i < l.length := by
  rcases Nat.lt_or_ge i l.length with hi | hi
  · exact hi
  · rw [List.getElem?_eq_none hi] at h; exact absurd h (by simp)

theorem slotsOk_ctor (g : Nat) : SlotsOk (threadpool_ctor g) := by
  simp [SlotsOk, threadpool_ctor]

theorem slotsOk_initPool (p : threadpool) (h : SlotsOk p) : SlotsOk (_initPool_ p) := by
  obtain ⟨h1, h2, h3, h4⟩ := h
  refine ⟨?_, ?_, ?_, ?_⟩
  · simp [_initPool_, h1]
  · intro k w hk
    simp only [_initPool_] at hk
    rcases Nat.lt_or_ge k p.pool.length with hlt | hge
    · rw [List.getElem?_append_left hlt] at hk
      exact h2 k w hk
    · rw [List.getElem?_append_right hge] at hk
      have hk0 : k - p.pool.length = 0 := by
        have := getElem?_lt hk
        simp at this; omega
      rw [hk0] at hk
      simp only [List.getElem?_cons_zero, Option.some.injEq] at hk
      subst hk
      have : k = p.pool.length := by omega
      simp [this]
  · intro w hw hpc
    simp only [_initPool_, List.mem_append, List.mem_singleton] at hw ⊢
    rcases hw with hw | rfl
    · have := h3 w hw hpc
      rw [List.getElem?_append_left (getElem?_lt this)]
      exact this
    · simp at hpc
  · intro w hw
    simp only [_initPool_, List.mem_append, List.mem_singleton] at hw
    rcases hw with hw | rfl
    · exact h4 w hw
    · simp

theorem slotsOk_step {p q : threadpool} {e : Event} (h : step p e = some q)
    (hp : SlotsOk p) : SlotsOk q := by
  rcases step_kinds h with ⟨n, gate, fr, rfl⟩ | ⟨gate, fr, fl, rfl, hlen, hmono⟩ | ⟨body, rfl⟩ |
    ⟨k, hk⟩
  · exact initLoop_induction _ slotsOk_initPool n _ hp
  · obtain ⟨h1, h2, h3, h4⟩ := hp
    refine ⟨by simpa [setFlags, hlen] using h1, h2, ?_, h4⟩
    intro w hw hpc
    rcases hmono _ _ (h3 w hw hpc) with hh | ⟨hh, _⟩
    · exact hh
    · simp at hh
  · exact hp
  · obtain ⟨h1, h2, h3, h4⟩ := hp
    obtain ⟨w, hw, hc⟩ := workerStep_cases hk
    have hq := workerStep_keeps hk
    have hpool : ∃ pc, q.pool = p.pool.set k { w with pc := pc } ∧ pc ≠ PC.terminated ∧
        (pc = PC.exited → p.stoped[w.index]? = some true) := by
      rcases hc with ⟨hpc, hf, rfl⟩ | ⟨t, rest, hpc, _, _, rfl⟩ | ⟨t, hpc, rfl⟩ | ⟨t, hpc, rfl⟩ |
        ⟨t, hpc, rfl⟩ | ⟨t, hpc, rfl⟩ | ⟨hpc, rfl⟩ | ⟨hpc, rfl⟩
      all_goals first
        | exact ⟨_, rfl, by simp, fun _ => hf⟩
        | exact ⟨_, rfl, by simp, by simp⟩
    obtain ⟨pc, hpl, hnt, hex⟩ := hpool
    refine ⟨?_, ?_, ?_, ?_⟩
    · rw [hq.2.1, hq.2.2.2.2]; exact h1
    · intro j w1 hj
      rw [hpl, List.getElem?_set] at hj
      split at hj
      · rename_i hkj
        subst hkj
        split at hj
        · simp only [Option.some.injEq] at hj
          subst hj
          exact h2 k w hw
        · exact absurd hj (by simp)
      · exact h2 j w1 hj
    · intro w1 hw1 hpc1
      rw [hq.2.1]
      rw [hpl] at hw1
      rcases List.mem_or_eq_of_mem_set hw1 with hm | rfl
      · exact h3 w1 hm hpc1
      · exact hex hpc1
    · intro w1 hw1
      rw [hpl] at hw1
      rcases List.mem_or_eq_of_mem_set hw1 with hm | rfl
      · exact h4 w1 hm
      · exact hnt


/-! ### The tasks -/

theorem gather_count_ge (f : PC → List Nat) (l : List Worker) (k : Nat) (w : Worker) (x : Nat)
    (h : l[k]? = some w) : List.count x (f w.pc) ≤ List.count x (gather f l) := by
  induction l generalizing k with
  | nil => simp at h
  | cons a as ih =>
    cases k with
    | zero =>
      simp only [List.getElem?_cons_zero, Option.some.injEq] at h
      subst h
      simp only [gather, List.count_append]; omega
    | succ k =>
      simp only [List.getElem?_cons_succ] at h
      simp only [gather, List.count_append]
      have := ih k h
      omega

theorem gather_count_set (f : PC → List Nat) (l : List Worker) (k : Nat) (w w1 : Worker)
    (x : Nat) (h : l[k]? = some w) :
    List.count x (gather f (l.set k w1)) =
      List.count x (gather f l) + List.count x (f w1.pc) - List.count x (f w.pc) := by
  have h1 := List.perm_iff_count.1 (gather_set f l k w w1 h) x
  simp only [List.count_append] at h1
  omega

theorem tasksOk_ctor (g : Nat) : TasksOk (threadpool_ctor g) := by
  simp [TasksOk, threadpool_ctor, completed, queued, gather]

theorem tasksOk_initPool (p : threadpool) (h : TasksOk p) : TasksOk (_initPool_ p) := by
  simpa [TasksOk, _initPool_, completed, queued, gather_append, gather, PC.pending,
    PC.unstarted] using h

theorem tasksOk_step {p q : threadpool} {e : Event} (h : step p e = some q)
    (hp : TasksOk p) : TasksOk q := by
  rcases step_kinds h with ⟨n, gate, fr, rfl⟩ | ⟨gate, fr, fl, rfl, -, -⟩ | ⟨body, rfl⟩ | ⟨k, hk⟩
  · exact initLoop_induction _ tasksOk_initPool n _ hp
  · exact hp
  · obtain ⟨h1, h2⟩ := hp
    refine ⟨List.perm_iff_count.2 (fun x => ?_), List.perm_iff_count.2 (fun x => ?_)⟩
    · have := List.perm_iff_count.1 h1 x
      simp only [completed, queued, List.map_append, List.count_append, List.range_succ,
        List.map_cons, List.map_nil] at this ⊢
      omega
    · have := List.perm_iff_count.1 h2 x
      simp only [completed, queued, List.map_append, List.count_append, List.range_succ,
        List.map_cons, List.map_nil] at this ⊢
      omega
  · obtain ⟨h1, h2⟩ := hp
    obtain ⟨w, hw, hc⟩ := workerStep_cases hk
    rcases hc with ⟨hpc, _, rfl⟩ | ⟨t, rest, hpc, _, ht, rfl⟩ | ⟨t, hpc, rfl⟩ | ⟨t, hpc, rfl⟩ |
      ⟨t, hpc, rfl⟩ | ⟨t, hpc, rfl⟩ | ⟨hpc, rfl⟩ | ⟨hpc, rfl⟩
    all_goals
      refine ⟨List.perm_iff_count.2 (fun x => ?_), List.perm_iff_count.2 (fun x => ?_)⟩
    all_goals
      have a1 := List.perm_iff_count.1 h1 x
      have a2 := List.perm_iff_count.1 h2 x
      have a3 := gather_count_ge PC.pending p.pool k w x hw
      have a4 := gather_count_ge PC.unstarted p.pool k w x hw
      simp only [completed, queued, setPC, List.map_append, List.count_append,
        List.map_cons, List.map_nil, gather_count_set _ _ _ _ _ _ hw, hpc, PC.pending,
        PC.unstarted, List.count_nil] at a1 a2 a3 a4 ⊢
      try simp only [ht, List.map_cons, List.count_cons, List.count_nil] at a1 a2 a3 a4 ⊢
      try simp only [List.count_cons, List.count_nil] at a1 a2 a3 a4 ⊢
      try omega


/-! ### Reachable states -/

theorem run_induction (P : threadpool → Prop)
    (hstep : ∀ (p q : threadpool) (e : Event), step p e = some q → P p → P q)
    {p q : threadpool} {es : List Event} (h : run p es = some q) (hp : P p) : P q := by
  induction es generalizing p with
  | nil => simp only [run, Option.some.injEq] at h; subst h; exact hp
  | cons e es ih =>
    simp only [run] at h
    split at h
    · exact absurd h (by simp)
    · rename_i r hr
      exact ih h (hstep p r e hr hp)

theorem run_append {p q r : threadpool} {es fs : List Event} (h1 : run p es = some q)
    (h2 : run q fs = some r) : run p (es ++ fs) = some r := by
  induction es generalizing p with
  | nil => simp only [run, Option.some.injEq] at h1; subst h1; simpa using h2
  | cons e es ih =>
    simp only [run, List.cons_append] at h1 ⊢
    split at h1
    · exact absurd h1 (by simp)
    · rename_i s hs
      exact ih h1

theorem inv_step (g : Nat) (p q : threadpool) (e : Event) (h : step p e = some q)
    (hp : Inv g p) : Inv g q :=
  ⟨countersOk_step g h hp.1, slotsOk_step h hp.2.1, tasksOk_step h hp.2.2⟩

theorem inv_ctor (g : Nat) : Inv g (threadpool_ctor g) :=
  ⟨countersOk_ctor g, slotsOk_ctor g, tasksOk_ctor g⟩

theorem inv_run (g : Nat) {p q : threadpool} {es : List Event} (h : run p es = some q)
    (hp : Inv g p) : Inv g q :=
  run_induction (Inv g) (inv_step g) h hp

theorem inv_reachable {g : Nat} {p : threadpool} (h : Reachable g p) : Inv g p := by
  obtain ⟨es, hes⟩ := h
  exact inv_run g hes (inv_ctor g)

theorem reachable_run {g : Nat} {p q : threadpool} {es : List Event} (hp : Reachable g p)
    (h : run p es = some q) : Reachable g q := by
  obtain ⟨fs, hfs⟩ := hp
  exact ⟨fs ++ es, run_append hfs h⟩

/-- Per worker: idle share + work share + (1 between `idle--` and `work++`)
= (1 when live) + (1 between `idle++` and `work--`). -/
theorem sum_balance (l : List Worker) (h : ∀ w ∈ l, w.pc ≠ PC.terminated) :
    sumBy PC.idleC l + sumBy PC.workC l + sumBy PC.decdC l =
      sumBy PC.liveC l + sumBy PC.incdC l := by
  induction l with
  | nil => simp [sumBy]
  | cons a as ih =>
    have h1 := ih (fun w hw => h w (List.mem_cons_of_mem _ hw))
    have h2 := h a (List.mem_cons_self _ _)
    simp only [sumBy]
    cases hpc : a.pc <;> simp [PC.idleC, PC.workC, PC.decdC, PC.liveC, PC.incdC, hpc] at h2 ⊢ <;>
      omega


/-! ### Progress of the workers -/

theorem isWorkerEvent_eq {e : Event} (h : isWorkerEvent e = true) : ∃ k, e = Event.worker k := by
  cases e <;> simp [isWorkerEvent] at h
  exact ⟨_, rfl⟩

theorem workerRun_keeps {p q : threadpool} {es : List Event} (h : run p es = some q)
    (hes : ∀ e ∈ es, isWorkerEvent e = true) :
    q.stoped = p.stoped ∧ q.nextId = p.nextId ∧ q.pool.length = p.pool.length ∧
    q.pool_stoped = p.pool_stoped := by
  induction es generalizing p with
  | nil => simp only [run, Option.some.injEq] at h; subst h; simp
  | cons e es ih =>
    simp only [run] at h
    split at h
    · exact absurd h (by simp)
    · rename_i r hr
      obtain ⟨k, rfl⟩ := isWorkerEvent_eq (hes e (List.mem_cons_self _ _))
      simp only [step] at hr
      have hk := workerStep_keeps hr
      have := ih h (fun e he => hes e (List.mem_cons_of_mem _ he))
      exact ⟨by rw [this.1, hk.2.1], by rw [this.2.1, hk.2.2.1], by rw [this.2.2.1, hk.2.2.2.2],
        by rw [this.2.2.2, hk.1]⟩

theorem gather_mem_set {f : PC → List Nat} {l : List Worker} {k : Nat} {w1 : Worker} {x : Nat}
    (h : x ∈ gather f (l.set k w1)) : x ∈ f w1.pc ∨ x ∈ gather f l := by
  induction l generalizing k with
  | nil => simp [gather] at h
  | cons a as ih =>
    cases k with
    | zero =>
      simp only [List.set_cons_zero, gather, List.mem_append] at h ⊢
      rcases h with h | h
      · exact Or.inl h
      · exact Or.inr (Or.inr h)
    | succ k =>
      simp only [List.set_cons_succ, gather, List.mem_append] at h ⊢
      rcases h with h | h
      · exact Or.inr (Or.inl h)
      · rcases ih h with h | h
        · exact Or.inl h
        · exact Or.inr (Or.inr h)

theorem gather_mem_of_getElem {f : PC → List Nat} {l : List Worker} {k : Nat} {w : Worker}
    {x : Nat} (h : l[k]? = some w) (hx : x ∈ f w.pc) : x ∈ gather f l := by
  have := gather_count_ge f l k w x h
  have h1 : 0 < List.count x (f w.pc) := List.count_pos_iff.2 hx
  exact List.count_pos_iff.1 (by omega)

theorem tasksOk_lt {p : threadpool} (ht : TasksOk p) :
    (∀ j ∈ queued p, j < p.nextId) ∧ (∀ i ∈ gather PC.pending p.pool, i < p.nextId) := by
  refine ⟨fun j hj => ?_, fun i hi => ?_⟩
  · exact List.mem_range.1 (ht.1.subset (by simp [hj]))
  · exact List.mem_range.1 (ht.1.subset (by simp [hi]))

theorem orderOk_ctor (g : Nat) : OrderOk (threadpool_ctor g) := by
  simp [OrderOk, threadpool_ctor, queued, gather]

theorem orderOk_initPool (p : threadpool) (h : OrderOk p) : OrderOk (_initPool_ p) := by
  simpa [OrderOk, _initPool_, queued, gather_append, gather, PC.pending] using h

theorem orderOk_step {p q : threadpool} {e : Event} (h : step p e = some q)
    (ht : TasksOk p) (hp : OrderOk p) : OrderOk q := by
  rcases step_kinds h with ⟨n, gate, fr, rfl⟩ | ⟨gate, fr, fl, rfl, -, -⟩ | ⟨body, rfl⟩ | ⟨k, hk⟩
  · exact initLoop_induction _ orderOk_initPool n _ hp
  · exact hp
  · obtain ⟨h1, h2⟩ := hp
    obtain ⟨l1, l2⟩ := tasksOk_lt ht
    refine ⟨?_, ?_⟩
    · simp only [queued, List.map_append, List.map_cons, List.map_nil]
      rw [List.pairwise_append]
      refine ⟨h1, by simp, ?_⟩
      intro a ha b hb
      simp only [List.mem_singleton] at hb
      subst hb
      exact l1 a ha
    · intro i hi j hj
      simp only [queued, List.map_append, List.map_cons, List.map_nil, List.mem_append,
        List.mem_singleton] at hj
      rcases hj with hj | rfl
      · exact h2 i hi j hj
      · exact l2 i hi
  · obtain ⟨h1, h2⟩ := hp
    obtain ⟨w, hw, hc⟩ := workerStep_cases hk
    have hsame : ∀ (pc : PC) (r : threadpool), r.tasks = p.tasks → r.pool = p.pool →
        (∀ x ∈ pc.pending, x ∈ w.pc.pending) → OrderOk (setPC k w pc r) := by
      intro pc r hrt hrp hsub
      have hq : queued (setPC k w pc r) = queued p := by simp [queued, setPC, hrt]
      refine ⟨by rw [hq]; exact h1, ?_⟩
      intro i hi j hj
      rw [hq] at hj
      simp only [setPC, hrp] at hi
      rcases gather_mem_set hi with hi | hi
      · exact h2 i (gather_mem_of_getElem hw (hsub i hi)) j hj
      · exact h2 i hi j hj
    rcases hc with ⟨hpc, _, rfl⟩ | ⟨t, rest, hpc, _, ht1, rfl⟩ | ⟨t, hpc, rfl⟩ | ⟨t, hpc, rfl⟩ |
      ⟨t, hpc, rfl⟩ | ⟨t, hpc, rfl⟩ | ⟨hpc, rfl⟩ | ⟨hpc, rfl⟩
    · exact hsame _ _ rfl rfl (by simp [PC.pending])
    · simp only [queued, ht1, List.map_cons, List.pairwise_cons] at h1 h2
      refine ⟨h1.2, ?_⟩
      intro i hi j hj
      simp only [setPC, queued] at hi hj
      rcases gather_mem_set hi with hi | hi
      · simp only [PC.pending, List.mem_singleton] at hi
        subst hi
        exact h1.1 j hj
      · exact h2 i hi j (List.mem_cons_of_mem _ hj)
    · exact hsame _ _ rfl rfl (by simp [PC.pending, hpc])
    · exact hsame _ _ rfl rfl (by simp [PC.pending, hpc])
    · exact hsame _ _ rfl rfl (by simp [PC.pending, hpc])
    · exact hsame _ _ rfl rfl (by simp [PC.pending])
    · exact hsame _ _ rfl rfl (by simp [PC.pending])
    · exact hsame _ _ rfl rfl (by simp [PC.pending])

theorem orderOk_reachable {g : Nat} {p : threadpool} (h : Reachable g p) : OrderOk p := by
  obtain ⟨es, hes⟩ := h
  have : TasksOk p ∧ OrderOk p :=
    run_induction (fun r => TasksOk r ∧ OrderOk r)
      (fun a b e hs ha => ⟨tasksOk_step hs ha.1, orderOk_step hs ha.1 ha.2⟩) hes
      ⟨tasksOk_ctor g, orderOk_ctor g⟩
  exact this.2


/-! ### A single live worker -/

theorem isWorkerOrCommit_eq {e : Event} (h : isWorkerOrCommit e = true) :
    (∃ k, e = Event.worker k) ∨ (∃ body, e = Event.commitTask body) := by
  cases e <;> simp [isWorkerOrCommit] at h
  · exact Or.inr ⟨_, rfl⟩
  · exact Or.inl ⟨_, rfl⟩

/-- A worker statement changes the slot of that worker only, and there only
the program counter. -/
theorem workerStep_pool {k : Nat} {p q : threadpool} (h : workerStep k p = some q) :
    ∃ w pc, p.pool[k]? = some w ∧ q.pool = p.pool.set k { w with pc := pc } := by
  obtain ⟨w, hw, hc⟩ := workerStep_cases h
  rcases hc with ⟨_, _, rfl⟩ | ⟨t, rest, _, _, _, rfl⟩ | ⟨t, _, rfl⟩ | ⟨t, _, rfl⟩ |
    ⟨t, _, rfl⟩ | ⟨t, _, rfl⟩ | ⟨_, rfl⟩ | ⟨_, rfl⟩ <;> exact ⟨w, _, hw, rfl⟩

/-- The statement of the worker of slot `k` keeps the line "completed, in
progress, queued" as it is. -/
theorem workerStep_line {p q : threadpool} {k : Nat} (hs : workerStep k p = some q) :
    completed q ++ pendingAt q k ++ queued q = completed p ++ pendingAt p k ++ queued p ∧
    q.started ++ unstartedAt q k ++ queued q = p.started ++ unstartedAt p k ++ queued p ∧
    (∃ d, completed q = completed p ++ d) ∧ (∃ d, q.started = p.started ++ d) := by
  obtain ⟨w, hw, hc⟩ := workerStep_cases hs
  have hlt := getElem?_lt hw
  have hpa : pendingAt p k = w.pc.pending ∧ unstartedAt p k = w.pc.unstarted := by
    simp [pendingAt, unstartedAt, hw]
  rcases hc with ⟨hpc, _, rfl⟩ | ⟨t, rest, hpc, _, ht1, rfl⟩ | ⟨t, hpc, rfl⟩ |
    ⟨t, hpc, rfl⟩ | ⟨t, hpc, rfl⟩ | ⟨t, hpc, rfl⟩ | ⟨hpc, rfl⟩ | ⟨hpc, rfl⟩
  all_goals
    rw [hpa.1, hpa.2]
    simp [pendingAt, unstartedAt, List.getElem?_set, hlt, completed, queued, setPC, hpc,
      PC.pending, PC.unstarted]
  · simp [ht1]

theorem workerStep_not_exited {k : Nat} {p q : threadpool} {w : Worker}
    (h : workerStep k p = some q) (hw : p.pool[k]? = some w) : w.pc ≠ PC.exited := by
  obtain ⟨w1, hw1, hc⟩ := workerStep_cases h
  rw [hw] at hw1
  simp only [Option.some.injEq] at hw1
  subst hw1
  rcases hc with ⟨hpc, _, _⟩ | ⟨t, rest, hpc, _, _, _⟩ | ⟨t, hpc, _⟩ | ⟨t, hpc, _⟩ |
    ⟨t, hpc, _⟩ | ⟨t, hpc, _⟩ | ⟨hpc, _⟩ | ⟨hpc, _⟩ <;> simp [hpc]

/-- One event of a pool in which only the worker of slot `k` is alive: the
line "completed, in progress, queued" keeps its order and grows at its end by
the id handed out, when the event is an accepted `commitTask`. -/
theorem step_line {p q : threadpool} {e : Event} {k : Nat}
    (hothers : ∀ (j : Nat) (w1 : Worker), j ≠ k → p.pool[j]? = some w1 → w1.pc = PC.exited)
    (he : isWorkerOrCommit e = true) (hs : step p e = some q) :
    (∀ (j : Nat) (w1 : Worker), j ≠ k → q.pool[j]? = some w1 → w1.pc = PC.exited) ∧
    p.nextId ≤ q.nextId ∧ q.stoped = p.stoped ∧
    (∀ w, p.pool[k]? = some w → ∃ pc, q.pool[k]? = some { w with pc := pc }) ∧
    completed q ++ pendingAt q k ++ queued q =
      completed p ++ pendingAt p k ++ queued p ++ List.range' p.nextId (q.nextId - p.nextId) ∧
    q.started ++ unstartedAt q k ++ queued q =
      p.started ++ unstartedAt p k ++ queued p ++ List.range' p.nextId (q.nextId - p.nextId) ∧
    (∃ d, completed q = completed p ++ d) ∧ (∃ d, q.started = p.started ++ d) := by
  rcases isWorkerOrCommit_eq he with ⟨j, rfl⟩ | ⟨body, rfl⟩
  · simp only [step] at hs
    obtain ⟨w, pc, hw, hpool⟩ := workerStep_pool hs
    have hkeep := workerStep_keeps hs
    have hjk : j = k := by
      by_contra hne
      exact workerStep_not_exited hs hw (hothers j w hne hw)
    subst hjk
    have hlt := getElem?_lt hw
    obtain ⟨l1, l2, l3, l4⟩ := workerStep_line hs
    refine ⟨?_, by rw [hkeep.2.2.1], hkeep.2.1, ?_, ?_, ?_, l3, l4⟩
    · intro i w1 hi hq
      rw [hpool, List.getElem?_set_ne (fun h => hi h.symm)] at hq
      exact hothers i w1 hi hq
    · intro w0 hw0
      rw [hw] at hw0
      simp only [Option.some.injEq] at hw0
      subst hw0
      exact ⟨pc, by rw [hpool]; simp [List.getElem?_set, hlt]⟩
    · rw [l1, hkeep.2.2.1]; simp
    · rw [l2, hkeep.2.2.1]; simp
  · simp only [step, Option.some.injEq] at hs
    subst hs
    by_cases hg : hasStopedPool p = true
    · have hq : (commitTask body p).1 = p := by simp [commitTask, hg]
      rw [hq]
      exact ⟨hothers, le_refl _, rfl, fun w hw => ⟨w.pc, hw⟩, by simp, by simp, ⟨[], by simp⟩,
        ⟨[], by simp⟩⟩
    · have hq : (commitTask body p).1 =
          { p with tasks := p.tasks ++ [{ id := p.nextId, body := body }],
                   nextId := p.nextId + 1 } := by simp [commitTask, hg]
      rw [hq]
      refine ⟨hothers, by simp, rfl, fun w hw => ⟨w.pc, hw⟩, ?_, ?_, ⟨[], by simp [completed]⟩,
        ⟨[], by simp⟩⟩
      · simp [completed, queued, pendingAt, List.range'_succ]
      · simp [queued, unstartedAt, List.range'_succ]

/-- A schedule of worker statements and `commitTask` calls of a pool in which
only the worker of slot `k` is alive. -/
theorem run_line {p q : threadpool} {es : List Event} {k : Nat}
    (hothers : ∀ (j : Nat) (w1 : Worker), j ≠ k → p.pool[j]? = some w1 → w1.pc = PC.exited)
    (hes : ∀ e ∈ es, isWorkerOrCommit e = true) (hrun : run p es = some q) :
    p.nextId ≤ q.nextId ∧ q.stoped = p.stoped ∧
    (∀ w, p.pool[k]? = some w → ∃ pc, q.pool[k]? = some { w with pc := pc }) ∧
    completed q ++ pendingAt q k ++ queued q =
      completed p ++ pendingAt p k ++ queued p ++ List.range' p.nextId (q.nextId - p.nextId) ∧
    q.started ++ unstartedAt q k ++ queued q =
      p.started ++ unstartedAt p k ++ queued p ++ List.range' p.nextId (q.nextId - p.nextId) ∧
    (∃ d, completed q = completed p ++ d) ∧ (∃ d, q.started = p.started ++ d) := by
  induction es generalizing p with
  | nil =>
    simp only [run, Option.some.injEq] at hrun
    subst hrun
    exact ⟨le_refl _, rfl, fun w hw => ⟨w.pc, hw⟩, by simp, by simp, ⟨[], by simp⟩, ⟨[], by simp⟩⟩
  | cons e es ih =>
    simp only [run] at hrun
    split at hrun
    · exact absurd hrun (by simp)
    · rename_i r hr
      obtain ⟨a1, a2, a3, a4, a5, a6, ⟨d1, a7⟩, ⟨d2, a8⟩⟩ :=
        step_line hothers (hes e (List.mem_cons_self _ _)) hr
      obtain ⟨b2, b3, b4, b5, b6, ⟨e1, b7⟩, ⟨e2, b8⟩⟩ :=
        ih a1 (fun x hx => hes x (List.mem_cons_of_mem _ hx)) hrun
      have hr' : List.range' p.nextId (r.nextId - p.nextId) ++
          List.range' r.nextId (q.nextId - r.nextId) =
          List.range' p.nextId (q.nextId - p.nextId) := by
        have := List.range'_append_1 p.nextId (r.nextId - p.nextId) (q.nextId - r.nextId)
        rw [show p.nextId + (r.nextId - p.nextId) = r.nextId by omega] at this
        rw [this]
        congr 1
        omega
      refine ⟨by omega, by rw [b3, a3], ?_, ?_, ?_, ⟨d1 ++ e1, by rw [b7, a7]; simp⟩,
        ⟨d2 ++ e2, by rw [b8, a8]; simp⟩⟩
      · intro w hw
        obtain ⟨pc1, h1⟩ := a4 w hw
        obtain ⟨pc2, h2⟩ := b4 _ h1
        exact ⟨pc2, h2⟩
      · rw [b5, a5, ← hr']; simp
      · rw [b6, a6, ← hr']; simp


theorem pending_pairwise (pc : PC) : List.Pairwise (fun a b => a < b) pc.pending := by
  cases pc <;> simp [PC.pending]

/-- The line "in progress at slot `k`, queued, handed out later" is in the
order of the ids. -/
theorem line_sorted {p : threadpool} (ht : TasksOk p) (ho : OrderOk p) (k m : Nat) :
    List.Pairwise (fun a b => a < b) (pendingAt p k ++ queued p ++ List.range' p.nextId m) := by
  obtain ⟨l1, l2⟩ := tasksOk_lt ht
  have hsub : ∀ x ∈ pendingAt p k, x ∈ gather PC.pending p.pool := by
    intro x hx
    simp only [pendingAt] at hx
    split at hx
    · rename_i w hw
      exact gather_mem_of_getElem hw hx
    · simp at hx
  have hpp : List.Pairwise (fun a b => a < b) (pendingAt p k) := by
    simp only [pendingAt]
    split
    · exact pending_pairwise _
    · simp
  rw [List.pairwise_append, List.pairwise_append]
  refine ⟨⟨hpp, ho.1, fun a ha b hb => ho.2 a (hsub a ha) b hb⟩, List.pairwise_lt_range' _ _, ?_⟩
  intro a ha b hb
  simp only [List.mem_range'_1] at hb
  rcases List.mem_append.1 ha with ha | ha
  · have := l2 a (hsub a ha); omega
  · have := l1 a ha; omega

/-- When the worker of slot `k` cannot move although its stop flag is unset,
it is parked in `wait` and the queue is empty. -/
theorem blocked_unflagged {q : threadpool} {k : Nat} {w : Worker} (hs : SlotsOk q)
    (hw : q.pool[k]? = some w) (hf : q.stoped[w.index]? = some false)
    (hq : quiescent q = true) : w.pc = PC.waiting ∧ q.tasks = [] := by
  obtain ⟨_, _, h3, h4⟩ := hs
  have hn : workerStep k q = none := by
    simp only [quiescent, List.all_eq_true, List.mem_range] at hq
    simpa using hq k (getElem?_lt hw)
  have hnt := h4 w (List.getElem?_mem hw)
  have hne : w.pc = PC.exited → False := fun he => by
    have := h3 w (List.getElem?_mem hw) he
    rw [hf] at this
    simp at this
  unfold workerStep at hn
  simp only [hw, hf] at hn
  cases hpc : w.pc <;> simp [hpc, packaged_task_call] at hn hnt hne ⊢
  cases ht : q.tasks <;> simp [ht] at hn ⊢


/-! ### One task, step by step -/

/-- From `task()` running to the worker back in `wait`: three statements. -/
theorem run_after_task {k : Nat} {p : threadpool} {w : Worker} {t : Task}
    (hw : p.pool[k]? = some w) (hpc : w.pc = PC.running t) :
    run p [Event.worker k, Event.worker k, Event.worker k] =
      some { p with pool := p.pool.set k { w with pc := PC.waiting },
                    futures := p.futures ++ [(t.id, t.body)],
                    idle_thread_num := uinc p.idle_thread_num,
                    work_thread_num := udec p.work_thread_num } := by
  have hlt := getElem?_lt hw
  simp [run, step, workerStep, hw, hpc, List.getElem?_set, hlt, setPC, packaged_task_call]

/-- From the wait to the wait: the seven statements of one task. -/
theorem run_one_task {k : Nat} {p : threadpool} {w : Worker} {t : Task} {rest : List Task}
    (hw : p.pool[k]? = some w) (hpc : w.pc = PC.waiting)
    (hf : p.stoped[w.index]? = some false) (ht : p.tasks = t :: rest) :
    run p (List.replicate 7 (Event.worker k)) =
      some { p with pool := p.pool.set k { w with pc := PC.waiting },
                    tasks := rest,
                    started := p.started ++ [t.id],
                    futures := p.futures ++ [(t.id, t.body)],
                    idle_thread_num := uinc (udec p.idle_thread_num),
                    work_thread_num := udec (uinc p.work_thread_num) } := by
  have hlt := getElem?_lt hw
  simp [List.replicate, run, step, workerStep, hw, hpc, hf, ht, List.getElem?_set, hlt, setPC,
    packaged_task_call]

theorem find_fresh (l : List (Nat × Outcome)) (id : Nat) (o : Outcome)
    (h : id ∉ l.map Prod.fst) :
    ((l ++ [(id, o)]).find? (fun e => e.1 == id)).map Prod.snd = some o := by
  induction l with
  | nil => simp
  | cons a as ih =>
    simp only [List.map_cons, List.mem_cons, not_or] at h
    have hne : (a.1 == id) = false := by
      simp only [beq_eq_false_iff_ne, ne_eq]
      exact fun e => h.1 e.symm
    simp only [List.cons_append, List.find?_cons, hne]
    exact ih h.2

theorem find_keep (l : List (Nat × Outcome)) (x : Nat × Outcome) (id : Nat) (o : Outcome)
    (h : (l.find? (fun e => e.1 == id)).map Prod.snd = some o) :
    ((l ++ [x]).find? (fun e => e.1 == id)).map Prod.snd = some o := by
  rw [List.find?_append]
  cases hf : l.find? (fun e => e.1 == id) with
  | none => simp [hf] at h
  | some y => simpa [hf] using h

/-- The task a worker holds has not been completed. -/
theorem pending_not_completed {p : threadpool} (ht : TasksOk p) {k : Nat} {w : Worker}
    (hw : p.pool[k]? = some w) {x : Nat} (hx : x ∈ w.pc.pending) : x ∉ completed p := by
  have hnd : (completed p ++ gather PC.pending p.pool ++ queued p).Nodup :=
    ht.1.nodup_iff.2 (List.nodup_range _)
  have h1 := (List.nodup_append.1 (List.nodup_append.1 hnd).1).2.2
  intro hc
  exact h1 hc (gather_mem_of_getElem hw hx)

theorem completed_lt {p : threadpool} (ht : TasksOk p) : ∀ x ∈ completed p, x < p.nextId := by
  intro x hx
  exact List.mem_range.1 (ht.1.subset (by simp [hx]))


/-! ### Shrinking the pool -/

/-- When the flag of every slot tells whether its worker has left, the live
workers are as many as the unset flags. -/
theorem live_eq_unset (l : List Worker) (fl : List Bool) (hlen : fl.length = l.length)
    (h : ∀ (k : Nat) (w : Worker) (b : Bool), l[k]? = some w → fl[k]? = some b →
      (b = true ↔ w.pc.liveC = 0))
    (h1 : ∀ w ∈ l, w.pc.liveC ≤ 1) :
    sumBy PC.liveC l = List.count false fl := by
  induction l generalizing fl with
  | nil =>
    cases fl with
    | nil => simp [sumBy]
    | cons b bs => simp at hlen
  | cons a as ih =>
    cases fl with
    | nil => simp at hlen
    | cons b bs =>
      have h0 := h 0 a b (by simp) (by simp)
      have hrec := ih bs (by simpa using hlen)
        (fun k w c hw hc => h (k + 1) w c (by simpa using hw) (by simpa using hc))
        (fun w hw => h1 w (List.mem_cons_of_mem _ hw))
      have ha := h1 a (List.mem_cons_self _ _)
      simp only [sumBy, hrec]
      cases b
      · have : a.pc.liveC ≠ 0 := fun e => by simpa using h0.2 e
        simp; omega
      · have := h0.1 rfl
        simp [this]

theorem sumBy_mono (f h : PC → Nat) (hfh : ∀ pc, f pc ≤ h pc) (l : List Worker) :
    sumBy f l ≤ sumBy h l := by
  induction l with
  | nil => simp [sumBy]
  | cons a as ih =>
    have := hfh a.pc
    simp only [sumBy]
    omega

theorem incdC_le_liveC (pc : PC) : pc.incdC ≤ pc.liveC := by
  cases pc <;> simp [PC.incdC, PC.liveC]

theorem liveC_le_one (pc : PC) : pc.liveC ≤ 1 := by
  cases pc <;> simp [PC.liveC]

theorem liveC_zero_iff (pc : PC) (hnt : pc ≠ PC.terminated) : pc.liveC = 0 ↔ pc = PC.exited := by
  cases pc <;> simp [PC.liveC] at hnt ⊢

/-- In a pool with at most `2^32` slots in which the stop requests have been
observed, the live workers are as many as the unset flags. -/
theorem liveNum_eq_unset {p : threadpool} (hs : SlotsOk p) (hlen : p.pool.length ≤ UINT)
    (hobs : stopsObserved p) : liveNum p = unsetFlags p := by
  obtain ⟨h1, h2, h3, h4⟩ := hs
  refine live_eq_unset p.pool p.stoped h1 ?_ (fun w _ => liveC_le_one w.pc)
  intro k w b hw hb
  have hk := getElem?_lt hw
  have hidx : w.index = k := by
    rw [h2 k w hw]
    exact Nat.mod_eq_of_lt (by omega)
  have hmem := List.getElem?_mem hw
  rw [liveC_zero_iff _ (h4 w hmem)]
  constructor
  · intro hbt
    subst hbt
    exact hobs w hmem (by rw [hidx]; exact hb)
  · intro hex
    have := h3 w hmem hex
    rw [hidx, hb] at this
    simpa using this


/-- A worker statement keeps "every flagged worker has left": a flagged
worker that has left executes nothing, and the others are not flagged. -/
theorem stopsObserved_workerStep {k : Nat} {p q : threadpool} (h : workerStep k p = some q)
    (hp : stopsObserved p) : stopsObserved q := by
  obtain ⟨w, pc, hw, hpool⟩ := workerStep_pool h
  have hk := workerStep_keeps h
  intro w1 hw1 hf
  rw [hk.2.1] at hf
  rw [hpool] at hw1
  rcases List.mem_or_eq_of_mem_set hw1 with hm | rfl
  · exact hp w1 hm hf
  · exact absurd (hp w (List.getElem?_mem hw) hf) (workerStep_not_exited h hw)

theorem stopsObserved_workerRun {p q : threadpool} {es : List Event} (h : run p es = some q)
    (hes : ∀ e ∈ es, isWorkerEvent e = true) (hp : stopsObserved p) : stopsObserved q := by
  induction es generalizing p with
  | nil => simp only [run, Option.some.injEq] at h; subst h; exact hp
  | cons e es ih =>
    simp only [run] at h
    split at h
    · exact absurd h (by simp)
    · rename_i r hr
      obtain ⟨k, rfl⟩ := isWorkerEvent_eq (hes e (List.mem_cons_self _ _))
      simp only [step] at hr
      exact ih h (fun e he => hes e (List.mem_cons_of_mem _ he)) (stopsObserved_workerStep hr hp)


/-! ### A call of `begin` in progress -/

theorem isBeginEvent_eq {e : Event} (h : isBeginEvent e = true) :
    e = Event.spawn ∨ (∃ k, e = Event.worker k) ∨ (∃ body, e = Event.commitTask body) := by
  cases e <;> simp [isBeginEvent] at h
  · exact Or.inl rfl
  · exact Or.inr (Or.inr ⟨_, rfl⟩)
  · exact Or.inr (Or.inl ⟨_, rfl⟩)

/-- One event during `begin`. -/
theorem beginEvent_step {p q : threadpool} {e : Event} (he : isBeginEvent e = true)
    (hs : step p e = some q) :
    q.pool_stoped = p.pool_stoped ∧ q.freedom_pool = p.freedom_pool ∧
    q.pool.length = p.pool.length + spawnCount e ∧
    q.stoped = p.stoped ++ List.replicate (spawnCount e) false ∧
    (∀ (k : Nat) (w : Worker), p.pool[k]? = some w →
      ∃ pc, q.pool[k]? = some { w with pc := pc }) ∧
    (∀ k, p.pool.length ≤ k → k < q.pool.length →
      q.pool[k]? = some { index := k % UINT, pc := PC.waiting }) ∧
    (q.idle_thread_num + eventIdleDec p e) % UINT =
      (p.idle_thread_num + spawnCount e + eventIdleInc p e) % UINT ∧
    (p.idle_thread_num < UINT ∨ 0 < spawnCount e → q.idle_thread_num < UINT) := by
  rcases isBeginEvent_eq he with rfl | ⟨k, rfl⟩ | ⟨body, rfl⟩
  · simp only [step, Option.some.injEq] at hs
    subst hs
    refine ⟨rfl, rfl, by simp [_initPool_, spawnCount], by simp [_initPool_, spawnCount],
      ?_, ?_, ?_, ?_⟩
    · intro k w hw
      exact ⟨w.pc, by simp [_initPool_, List.getElem?_append_left (getElem?_lt hw), hw]⟩
    · intro k h1 h2
      have hk : k = p.pool.length := by simp [_initPool_] at h2; omega
      subst hk
      simp [_initPool_]
    · simp only [_initPool_, uinc, eventIdleDec, eventIdleInc, spawnCount, UINT]; omega
    · intro _
      simp only [_initPool_, uinc, UINT]; omega
  · simp only [step] at hs
    obtain ⟨w, hw, hc⟩ := workerStep_cases hs
    obtain ⟨w0, pc, hw0, hpool⟩ := workerStep_pool hs
    have hk := workerStep_keeps hs
    have hlt := getElem?_lt hw
    refine ⟨hk.1, hk.2.2.2.1, by simp [hk.2.2.2.2, spawnCount], by simp [hk.2.1, spawnCount],
      ?_, ?_, ?_, ?_⟩
    · intro j w1 hj
      by_cases hjk : k = j
      · subst hjk
        rw [hw0] at hj
        simp only [Option.some.injEq] at hj
        subst hj
        exact ⟨pc, by rw [hpool]; simp [List.getElem?_set, hlt]⟩
      · exact ⟨w1.pc, by rw [hpool, List.getElem?_set_ne hjk]; exact hj⟩
    · intro j h1 h2
      rw [hk.2.2.2.2] at h2
      omega
    · rcases hc with ⟨hpc, hf, rfl⟩ | ⟨t, rest, hpc, hf, _, rfl⟩ | ⟨t, hpc, rfl⟩ |
        ⟨t, hpc, rfl⟩ | ⟨t, hpc, rfl⟩ | ⟨t, hpc, rfl⟩ | ⟨hpc, rfl⟩ | ⟨hpc, rfl⟩
      · simp only [eventIdleDec, eventIdleInc, idleDecOf, idleIncOf, hw, hpc, hf, spawnCount,
          setPC, udec_eq, UINT]
        simp
        omega
      · simp only [eventIdleDec, eventIdleInc, idleDecOf, idleIncOf, hw, hpc, hf, spawnCount,
          setPC]
        simp
      all_goals
        simp only [eventIdleDec, eventIdleInc, idleDecOf, idleIncOf, hw, hpc, spawnCount,
          setPC, uinc, udec_eq, UINT]
        try simp
        try omega
    · intro hlt0
      rcases hc with ⟨hpc, hf, rfl⟩ | ⟨t, rest, hpc, hf, _, rfl⟩ | ⟨t, hpc, rfl⟩ |
        ⟨t, hpc, rfl⟩ | ⟨t, hpc, rfl⟩ | ⟨t, hpc, rfl⟩ | ⟨hpc, rfl⟩ | ⟨hpc, rfl⟩
      all_goals
        simp only [spawnCount, setPC, uinc, udec_eq, UINT] at hlt0 ⊢
        omega
  · simp only [step, Option.some.injEq] at hs
    subst hs
    by_cases hg : hasStopedPool p = true
    · have hq : (commitTask body p).1 = p := by simp [commitTask, hg]
      rw [hq]
      refine ⟨rfl, rfl, by simp [spawnCount], by simp [spawnCount], fun k w hw => ⟨w.pc, hw⟩,
        fun k h1 h2 => by omega, by simp [eventIdleDec, eventIdleInc, spawnCount], ?_⟩
      intro h
      simpa [spawnCount] using h
    · have hq : (commitTask body p).1 =
          { p with tasks := p.tasks ++ [{ id := p.nextId, body := body }],
                   nextId := p.nextId + 1 } := by simp [commitTask, hg]
      rw [hq]
      refine ⟨rfl, rfl, by simp [spawnCount], by simp [spawnCount], fun k w hw => ⟨w.pc, hw⟩,
        fun k h1 h2 => by simp at h2; omega, by simp [eventIdleDec, eventIdleInc, spawnCount],
        ?_⟩
      intro h
      simpa [spawnCount] using h

/-- A schedule during `begin`. -/
theorem beginRun {p q : threadpool} {es : List Event}
    (hes : ∀ e ∈ es, isBeginEvent e = true) (hrun : run p es = some q) :
    q.pool_stoped = p.pool_stoped ∧ q.freedom_pool = p.freedom_pool ∧
    q.pool.length = p.pool.length + spawns es ∧
    q.stoped = p.stoped ++ List.replicate (spawns es) false ∧
    (∀ (k : Nat) (w : Worker), p.pool[k]? = some w →
      ∃ pc, q.pool[k]? = some { w with pc := pc }) ∧
    (∀ k, p.pool.length ≤ k → k < q.pool.length →
      ∃ pc, q.pool[k]? = some { index := k % UINT, pc := pc }) ∧
    (q.idle_thread_num + workerIdleDecs p es) % UINT =
      (p.idle_thread_num + spawns es + workerIdleIncs p es) % UINT ∧
    (p.idle_thread_num < UINT ∨ 0 < spawns es → q.idle_thread_num < UINT) := by
  induction es generalizing p with
  | nil =>
    simp only [run, Option.some.injEq] at hrun
    subst hrun
    refine ⟨rfl, rfl, by simp [spawns], by simp [spawns], fun k w hw => ⟨w.pc, hw⟩,
      fun k h1 h2 => by omega, by simp [workerIdleDecs, workerIdleIncs, spawns], ?_⟩
    intro h
    simpa [spawns] using h
  | cons e es ih =>
    simp only [run] at hrun
    split at hrun
    · exact absurd hrun (by simp)
    · rename_i r hr
      obtain ⟨a1, a2, a3, a4, a5, a6, a7, a8⟩ :=
        beginEvent_step (hes e (List.mem_cons_self _ _)) hr
      obtain ⟨b1, b2, b3, b4, b5, b6, b7, b8⟩ :=
        ih (fun x hx => hes x (List.mem_cons_of_mem _ hx)) hrun
      refine ⟨by rw [b1, a1], by rw [b2, a2], by simp only [spawns]; omega, ?_, ?_, ?_, ?_, ?_⟩
      · rw [b4, a4, List.append_assoc, ← List.replicate_add]
        rfl
      · intro k w hw
        obtain ⟨pc1, h1⟩ := a5 k w hw
        obtain ⟨pc2, h2⟩ := b5 k _ h1
        exact ⟨pc2, h2⟩
      · intro k h1 h2
        by_cases hk : k < r.pool.length
        · obtain ⟨pc2, h3⟩ := b5 k _ (a6 k h1 hk)
          exact ⟨pc2, h3⟩
        · exact b6 k (by omega) h2
      · simp only [workerIdleDecs, workerIdleIncs, hr, spawns, UINT] at a7 b7 ⊢
        omega
      · intro h
        apply b8
        rcases h with h | h
        · exact Or.inl (a8 (Or.inl h))
        · simp only [spawns] at h
          by_cases h0 : 0 < spawnCount e
          · exact Or.inl (a8 (Or.inr h0))
          · exact Or.inr (by omega)

theorem run_spawns (n : Nat) (p : threadpool) :
    run p (List.replicate n Event.spawn) = some (initLoop n p) := by
  induction n generalizing p with
  | zero => rfl
  | succ n ih => simp only [List.replicate_succ, run, step, initLoop, ih]

/-! ## The claims -/

/-- C1: when the submission gate is closed (it is after `stopTask()` and after
`close()`, and it stays closed along every schedule that calls none of `begin`,
`resize`, `restartTask`), `commitTask(work)` throws "the threadPool is
stopped." and the pool is exactly the pool it was: queue, stop flags, both
counters, the ids handed out and the settled futures are unchanged, so the
rejected work is neither enqueued nor executed. -/
theorem commitTask_rejected_when_stopped (q p0 p : threadpool) (es : List Event)
    (body : Outcome)
    (hclosed : hasStopedPool p0 = true)
    (hes : ∀ e ∈ es, keepsGate e = true)
    (hrun : run p0 es = some p) :
    hasStopedPool (stopTask q) = true ∧ hasStopedPool (close q) = true ∧
    hasStopedPool p = true ∧
    (commitTask body p).2 = Except.error "the threadPool is stopped." ∧
    (commitTask body p).1 = p ∧
    step p (Event.commitTask body) = some p := by
  have hp := run_keepsGate hrun hes hclosed
  refine ⟨by simp [stopTask, hasStopedPool], by simp [close, hasStopedPool], hp, ?_, ?_, ?_⟩ <;>
    simp [step, commitTask, hasStopedPool, hp]

theorem commitTask_rejected_when_stopped_witness :
    hasStopedPool (stopTask (threadpool_ctor 0)) = true ∧
    hasStopedPool (close (threadpool_ctor 0)) = true ∧
    hasStopedPool (close (stopTask (begin 2 false (threadpool_ctor 0)))) = true ∧
    (commitTask (Outcome.value 1) (close (stopTask (begin 2 false (threadpool_ctor 0))))).2 =
      Except.error "the threadPool is stopped." ∧
    (commitTask (Outcome.value 1) (close (stopTask (begin 2 false (threadpool_ctor 0))))).1 =
      close (stopTask (begin 2 false (threadpool_ctor 0))) ∧
    step (close (stopTask (begin 2 false (threadpool_ctor 0))))
        (Event.commitTask (Outcome.value 1)) =
      some (close (stopTask (begin 2 false (threadpool_ctor 0)))) :=
  commitTask_rejected_when_stopped (threadpool_ctor 0)
    (stopTask (begin 2 false (threadpool_ctor 0)))
    (close (stopTask (begin 2 false (threadpool_ctor 0)))) [Event.close] (Outcome.value 1)
    (by decide) (by decide) (by decide)

/-- C3 (amended): for every pool state and every size, with
c = min(max(size, 1), 2048), a call `begin(size, f)` during which workers
execute statements and other threads call `commitTask` (a call that nothing
interleaves with is the function `begin`): the call opens the gate and
appends exactly c worker slots; the thread collection and the flag collection
each grow by c, every new slot has captured its position, every new flag is
false, every pre-existing slot keeps its place and captured index (only its
worker moves on) and every pre-existing flag is unchanged; the gate is open
afterwards. The call executes `idle_thread_num++` exactly c times: modulo
2^32, `idleNum()` afterwards plus the `idle_thread_num--` executed by workers
during the call equals `idleNum()` before plus c plus the
`idle_thread_num++` executed by workers during the call; when no worker
updates `idle_thread_num` during the call, `idleNum()` becomes
(old + c) mod 2^32, which is old + c whenever old + c < 2^32. -/
theorem begin_appends_slots (p q : threadpool) (size : Nat) (f : Bool) (es : List Event)
    (hes : ∀ e ∈ es, isBeginEvent e = true)
    (hc : spawns es = min (max size 1) 2048)
    (hrun : run (setFlags false f p) es = some q) :
    run (setFlags false f p) (List.replicate (min (max size 1) 2048) Event.spawn) =
      some (begin size f p) ∧
    q.pool.length = p.pool.length + min (max size 1) 2048 ∧
    (∀ (k : Nat) (w : Worker), p.pool[k]? = some w →
      ∃ pc, q.pool[k]? = some { w with pc := pc }) ∧
    (∀ k, p.pool.length ≤ k → k < p.pool.length + min (max size 1) 2048 →
      ∃ pc, q.pool[k]? = some { index := k % UINT, pc := pc }) ∧
    q.stoped = p.stoped ++ List.replicate (min (max size 1) 2048) false ∧
    hasStopedPool q = false ∧
    (idleNum q + workerIdleDecs (setFlags false f p) es) % UINT =
      (idleNum p + min (max size 1) 2048 + workerIdleIncs (setFlags false f p) es) % UINT ∧
    (workerIdleIncs (setFlags false f p) es = 0 → workerIdleDecs (setFlags false f p) es = 0 →
      idleNum q = (idleNum p + min (max size 1) 2048) % UINT ∧
      (idleNum p + min (max size 1) 2048 < UINT →
        idleNum q = idleNum p + min (max size 1) 2048)) := by
  obtain ⟨b1, _, b3, b4, b5, b6, b7, b8⟩ := beginRun hes hrun
  have hpos : 0 < spawns es := by rw [hc]; omega
  have hq := b8 (Or.inr hpos)
  rw [hc] at b3 b4 b7
  refine ⟨?_, b3, b5, ?_, b4, ?_, b7, ?_⟩
  · rw [run_spawns, ← checkSize_eq]
    rfl
  · intro k h1 h2
    exact b6 k h1 (by rw [b3]; exact h2)
  · simp only [hasStopedPool, b1, setFlags]
  · intro hi hd
    rw [hi, hd] at b7
    have hmod : idleNum q = (idleNum p + min (max size 1) 2048) % UINT := by
      simp only [idleNum, setFlags, UINT] at b7 hq ⊢
      omega
    exact ⟨hmod, fun h => by rw [hmod]; exact Nat.mod_eq_of_lt h⟩

theorem begin_appends_slots_witness :
    ∃ q, run (setFlags false false poolQueued) beginRacing = some q ∧
    (run (setFlags false false poolQueued) (List.replicate (min (max 2 1) 2048) Event.spawn) =
      some (begin 2 false poolQueued) ∧
    q.pool.length = poolQueued.pool.length + min (max 2 1) 2048 ∧
    (∀ (k : Nat) (w : Worker), poolQueued.pool[k]? = some w →
      ∃ pc, q.pool[k]? = some { w with pc := pc }) ∧
    (∀ k, poolQueued.pool.length ≤ k → k < poolQueued.pool.length + min (max 2 1) 2048 →
      ∃ pc, q.pool[k]? = some { index := k % UINT, pc := pc }) ∧
    q.stoped = poolQueued.stoped ++ List.replicate (min (max 2 1) 2048) false ∧
    hasStopedPool q = false ∧
    (idleNum q + workerIdleDecs (setFlags false false poolQueued) beginRacing) % UINT =
      (idleNum poolQueued + min (max 2 1) 2048 +
        workerIdleIncs (setFlags false false poolQueued) beginRacing) % UINT ∧
    (workerIdleIncs (setFlags false false poolQueued) beginRacing = 0 →
      workerIdleDecs (setFlags false false poolQueued) beginRacing = 0 →
      idleNum q = (idleNum poolQueued + min (max 2 1) 2048) % UINT ∧
      (idleNum poolQueued + min (max 2 1) 2048 < UINT →
        idleNum q = idleNum poolQueued + min (max 2 1) 2048))) :=
  ⟨_, rfl, begin_appends_slots poolQueued _ 2 false beginRacing (by decide) (by decide) rfl⟩

/-- C3, counterexample: one task is submitted to a fresh pool, then
`begin(2)` is called. The thread started by the first `_initPool_` runs while
the loop of `begin` goes on: it takes the task and executes
`idle_thread_num--` before the second `_initPool_`. When `begin` returns two
slots have been added and `idleNum()` is 1; it has not risen by 2. -/
theorem begin_idle_with_running_worker :
    ∃ q, run (setFlags false false poolQueued) beginRacing = some q ∧
      spawns beginRacing = min (max 2 1) 2048 ∧
      q.pool.length = poolQueued.pool.length + 2 ∧
      idleNum poolQueued = 0 ∧ idleNum q = 1 ∧
      workerIdleDecs (setFlags false false poolQueued) beginRacing = 1 ∧
      ¬ (idleNum q = idleNum poolQueued + min (max 2 1) 2048) :=
  ⟨_, rfl, by decide⟩

/-- C4 (amended): with t = min(max(target, 1), 2048) and alive the
`unsigned int` sum of the two values that line 139 loads from
`idle_thread_num` and `work_thread_num` at entry (`resize` is `resizeWith` at
the counters of the pool): if t > alive, `resize` appends exactly t - alive
slots with false flags and leaves the old flags as they are; if t < alive, it
spawns nothing and sets exactly the first min(alive - t, u) unset flags in
index order, u being the number of flags that were unset: a front part of the
flag list that holds that many unset flags becomes all set, every flag behind
it is unchanged, so every flag is unchanged or goes from unset to set; if
t = alive nothing changes. The two collections never shrink. -/
theorem resize_effect (p : threadpool) (target i w : Nat) :
    resize target p = resizeWith p.idle_thread_num p.work_thread_num target p ∧
    ((i + w) % UINT < min (max target 1) 2048 →
      (∃ new, (resizeWith i w target p).pool = p.pool ++ new ∧
          new.length = min (max target 1) 2048 - (i + w) % UINT ∧
          ∀ x ∈ new, x.pc = PC.waiting) ∧
      (resizeWith i w target p).stoped =
        p.stoped ++ List.replicate (min (max target 1) 2048 - (i + w) % UINT) false) ∧
    (min (max target 1) 2048 < (i + w) % UINT →
      (resizeWith i w target p).pool = p.pool ∧
      (resizeWith i w target p).stoped.length = p.stoped.length ∧
      (∃ n, (resizeWith i w target p).stoped =
          List.replicate (min n p.stoped.length) true ++ p.stoped.drop n ∧
        List.count false (p.stoped.take n) =
          min ((i + w) % UINT - min (max target 1) 2048) (unsetFlags p)) ∧
      (∀ (j : Nat) (b : Bool), p.stoped[j]? = some b →
        (resizeWith i w target p).stoped[j]? = some b ∨
          (b = false ∧ (resizeWith i w target p).stoped[j]? = some true)) ∧
      unsetFlags p - unsetFlags (resizeWith i w target p) =
        min ((i + w) % UINT - min (max target 1) 2048) (unsetFlags p)) ∧
    (min (max target 1) 2048 = (i + w) % UINT →
      (resizeWith i w target p).pool = p.pool ∧
      (resizeWith i w target p).stoped = p.stoped) ∧
    p.pool.length ≤ (resizeWith i w target p).pool.length ∧
    p.stoped.length ≤ (resizeWith i w target p).stoped.length := by
  rw [← checkSize_eq target]
  refine ⟨rfl, ?_, ?_, ?_, ?_, ?_⟩
  · intro h
    rw [resizeWith_grow _ _ _ _ h, initLoop_pool, initLoop_stoped]
    exact ⟨⟨_, rfl, newSlots_length _ _, newSlots_waiting _ _⟩, rfl⟩
  · intro h
    rw [resizeWith_shrink _ _ _ _ h]
    refine ⟨rfl, stopLoop_length _ _ _, ?_, fun j b hb => stopLoop_mono _ _ _ j b hb, ?_⟩
    · obtain ⟨n, h1, h2⟩ := stopLoop_front ((i + w) % UINT - _checkSize_ target) p.stoped 0
        (by omega)
      exact ⟨n, h1, by simpa [unsetFlags] using h2⟩
    · simp only [unsetFlags]
      rw [stopLoop_count _ _ _ (by omega)]
      omega
  · intro h
    rw [resizeWith_same _ _ _ _ h]
    exact ⟨rfl, rfl⟩
  · rcases Nat.lt_trichotomy ((i + w) % UINT) (_checkSize_ target) with h | h | h
    · rw [resizeWith_grow _ _ _ _ h, initLoop_pool]; simp
    · rw [resizeWith_same _ _ _ _ h.symm]
    · rw [resizeWith_shrink _ _ _ _ h]
  · rcases Nat.lt_trichotomy ((i + w) % UINT) (_checkSize_ target) with h | h | h
    · rw [resizeWith_grow _ _ _ _ h, initLoop_stoped]; simp
    · rw [resizeWith_same _ _ _ _ h.symm]
    · rw [resizeWith_shrink _ _ _ _ h]; simp [stopLoop_length]

theorem resize_effect_witness :
    (resizeWith 4 0 2 poolFour).stoped = [true, true, false, false] ∧
    (∃ n, (resizeWith 4 0 2 poolFour).stoped =
        List.replicate (min n poolFour.stoped.length) true ++ poolFour.stoped.drop n ∧
      List.count false (poolFour.stoped.take n) =
        min ((4 + 0) % UINT - min (max 2 1) 2048) (unsetFlags poolFour)) :=
  ⟨by decide, ((resize_effect poolFour 2 4 0).2.2.1 (by decide)).2.2.1⟩

/-- C4, counterexample: after `begin(2); close()` both workers are still
counted (alive = 2) and both flags are already set; `resize(1)` has 1 < 2 and
should set one flag, but finds no unset flag and sets none. -/
theorem resize_flags_short :
    aliveNum poolClosed2 = 2 ∧ min (max 1 1) 2048 < aliveNum poolClosed2 ∧
    (resize 1 poolClosed2).stoped = poolClosed2.stoped ∧
    ¬ (unsetFlags poolClosed2 - unsetFlags (resize 1 poolClosed2) =
        aliveNum poolClosed2 - min (max 1 1) 2048) := by
  decide

/-- C6, the failing schedule: after `begin(4)` and ten `commitTask` calls, with
no worker scheduled yet, the poll of `waitAllTaskRunOver` reads
`work_thread_num == 0` and returns, while all ten tasks are still in the
queue and none has run. -/
theorem wait_returns_with_tasks_queued :
    waitAllTaskRunOver poolTenQueued = true ∧ workNum poolTenQueued = 0 ∧
    poolTenQueued.tasks.length = 10 ∧ poolTenQueued.started = [] ∧
    poolTenQueued.futures = [] := by
  decide

/-- C10, the failing construction: the constructor assigns `work_thread_num`
but not `idle_thread_num`; built in storage that held 7 there, the fresh pool
has no slots, an empty queue, an open gate and `workNum() = 0`, but
`idleNum()` is 7. -/
theorem ctor_leaves_idle_unassigned :
    idleNum (threadpool_ctor 7) = 7 ∧ workNum (threadpool_ctor 7) = 0 ∧
    (threadpool_ctor 7).pool = [] ∧ (threadpool_ctor 7).stoped = [] ∧
    (threadpool_ctor 7).tasks = [] ∧ hasStopedPool (threadpool_ctor 7) = false := by
  decide

/-- C7 (amended): in every state reachable from a pool whose
`idle_thread_num` started at 0, `idleNum() + workNum()` is at most the number
of workers spawned and not yet out of their loop plus the number of workers
that have executed `idle_thread_num++` and not yet `work_thread_num--`; when no
worker is between these two updates it is at most the number of live workers. -/
theorem counters_bounded_by_live (p : threadpool) (h : Reachable 0 p) :
    idleNum p + workNum p ≤ liveNum p + sumBy PC.incdC p.pool ∧
    (sumBy PC.incdC p.pool = 0 → idleNum p + workNum p ≤ liveNum p) := by
  obtain ⟨⟨h1, h2⟩, ⟨_, _, _, h4⟩, _⟩ := inv_reachable h
  have hb := sum_balance p.pool h4
  have key : idleNum p + workNum p ≤ liveNum p + sumBy PC.incdC p.pool := by
    simp only [idleNum, workNum, liveNum, h1, h2, UINT] at *
    omega
  exact ⟨key, fun h0 => by omega⟩

theorem counters_bounded_by_live_witness :
    idleNum (begin 2 false (threadpool_ctor 0)) + workNum (begin 2 false (threadpool_ctor 0)) ≤
      liveNum (begin 2 false (threadpool_ctor 0)) +
        sumBy PC.incdC (begin 2 false (threadpool_ctor 0)).pool ∧
    (sumBy PC.incdC (begin 2 false (threadpool_ctor 0)).pool = 0 →
      idleNum (begin 2 false (threadpool_ctor 0)) + workNum (begin 2 false (threadpool_ctor 0)) ≤
        liveNum (begin 2 false (threadpool_ctor 0))) :=
  counters_bounded_by_live (begin 2 false (threadpool_ctor 0)) ⟨[Event.begin 2 false], rfl⟩

/-- C7, counterexample: `begin(1)`, one task, and the worker runs up to and
including its `idle_thread_num++`: one live worker, `idleNum() = 1` and
`workNum() = 1`. -/
theorem counters_exceed_live_between_updates :
    ∃ p, run (threadpool_ctor 0) (oneTask 6) = some p ∧
      idleNum p = 1 ∧ workNum p = 1 ∧ liveNum p = 1 ∧ ¬ (idleNum p + workNum p ≤ liveNum p) :=
  ⟨_, rfl, by decide⟩

/-- C8: in a reachable pool whose only live worker is the one of slot `k`
(every other slot has left its loop) and whose stop flag is unset, along every
schedule of `commitTask` calls and worker statements: the tasks not yet
completed (the one in progress, the queued ones front to back, then the ones
submitted during the schedule) are in the order of their `commitTask` calls
(ids grow with each accepted call); the tasks completed during the schedule
are an initial segment of that line, completed in that order, and so are the
tasks started; and when the worker can move no more, the whole line has been
started and completed in that order. -/
theorem single_worker_fifo (g : Nat) (p q : threadpool) (k : Nat) (w : Worker) (es : List Event)
    (hr : Reachable g p) (hw : p.pool[k]? = some w) (hflag : p.stoped[w.index]? = some false)
    (hothers : ∀ (j : Nat) (w1 : Worker), j ≠ k → p.pool[j]? = some w1 → w1.pc = PC.exited)
    (hes : ∀ e ∈ es, isWorkerOrCommit e = true) (hrun : run p es = some q) :
    List.Pairwise (fun a b => a < b)
      (pendingAt p k ++ queued p ++ List.range' p.nextId (q.nextId - p.nextId)) ∧
    (∃ done, completed q = completed p ++ done ∧
      done ++ (pendingAt q k ++ queued q) =
        pendingAt p k ++ queued p ++ List.range' p.nextId (q.nextId - p.nextId)) ∧
    (∃ begun, q.started = p.started ++ begun ∧
      begun ++ (unstartedAt q k ++ queued q) =
        unstartedAt p k ++ queued p ++ List.range' p.nextId (q.nextId - p.nextId)) ∧
    (quiescent q = true →
      completed q = completed p ++
        (pendingAt p k ++ queued p ++ List.range' p.nextId (q.nextId - p.nextId)) ∧
      q.started = p.started ++
        (unstartedAt p k ++ queued p ++ List.range' p.nextId (q.nextId - p.nextId))) := by
  obtain ⟨_, _, htp⟩ := inv_reachable hr
  obtain ⟨_, hsq, _⟩ := inv_reachable (reachable_run hr hrun)
  obtain ⟨_, b3, b4, b5, b6, ⟨d1, b7⟩, ⟨d2, b8⟩⟩ := run_line hothers hes hrun
  have hd1 : d1 ++ (pendingAt q k ++ queued q) =
      pendingAt p k ++ queued p ++ List.range' p.nextId (q.nextId - p.nextId) := by
    rw [b7] at b5
    simp only [List.append_assoc] at b5 ⊢
    exact List.append_cancel_left b5
  have hd2 : d2 ++ (unstartedAt q k ++ queued q) =
      unstartedAt p k ++ queued p ++ List.range' p.nextId (q.nextId - p.nextId) := by
    rw [b8] at b6
    simp only [List.append_assoc] at b6 ⊢
    exact List.append_cancel_left b6
  refine ⟨line_sorted htp (orderOk_reachable hr) k _, ⟨d1, b7, hd1⟩, ⟨d2, b8, hd2⟩, ?_⟩
  intro hq
  obtain ⟨pc, hwq⟩ := b4 w hw
  have hfq : q.stoped[w.index]? = some false := by rw [b3]; exact hflag
  obtain ⟨hpc, htq⟩ := blocked_unflagged hsq hwq hfq hq
  simp only at hpc
  have e1 : pendingAt q k = [] := by simp [pendingAt, hwq, hpc, PC.pending]
  have e2 : unstartedAt q k = [] := by simp [unstartedAt, hwq, hpc, PC.unstarted]
  have e3 : queued q = [] := by simp [queued, htq]
  rw [e1, e3] at hd1
  rw [e2, e3] at hd2
  simp only [List.append_nil] at hd1 hd2
  exact ⟨by rw [b7, hd1], by rw [b8, hd2]⟩


theorem single_worker_fifo_witness :
    ∃ q, run poolOneWorker (oneWorkerSchedule) = some q ∧
    (List.Pairwise (fun a b => a < b)
      (pendingAt poolOneWorker 0 ++ queued poolOneWorker ++
        List.range' poolOneWorker.nextId (q.nextId - poolOneWorker.nextId)) ∧
    (∃ done, completed q = completed poolOneWorker ++ done ∧
      done ++ (pendingAt q 0 ++ queued q) =
        pendingAt poolOneWorker 0 ++ queued poolOneWorker ++
          List.range' poolOneWorker.nextId (q.nextId - poolOneWorker.nextId)) ∧
    (∃ begun, q.started = poolOneWorker.started ++ begun ∧
      begun ++ (unstartedAt q 0 ++ queued q) =
        unstartedAt poolOneWorker 0 ++ queued poolOneWorker ++
          List.range' poolOneWorker.nextId (q.nextId - poolOneWorker.nextId)) ∧
    (quiescent q = true →
      completed q = completed poolOneWorker ++
        (pendingAt poolOneWorker 0 ++ queued poolOneWorker ++
          List.range' poolOneWorker.nextId (q.nextId - poolOneWorker.nextId)) ∧
      q.started = poolOneWorker.started ++
        (unstartedAt poolOneWorker 0 ++ queued poolOneWorker ++
          List.range' poolOneWorker.nextId (q.nextId - poolOneWorker.nextId)))) :=
  ⟨_, rfl, single_worker_fifo 0 poolOneWorker _ 0 { index := 0, pc := PC.waiting }
    oneWorkerSchedule
    ⟨[Event.begin 1 false, Event.commitTask (Outcome.value 1),
      Event.commitTask (Outcome.value 2)], rfl⟩
    rfl rfl
    (fun j w1 hj h => by
      cases j with
      | zero => exact absurd rfl hj
      | succ n => exact absurd h (by simp [poolOneWorker, commitTask, hasStopedPool, begin,
          _checkSize_, initLoop, _initPool_, threadpool_ctor, MAX_THREAD_NUM]))
    (by decide) rfl⟩

/-- C9: when the body of the task a worker is running throws, the call
`task()` returns normally (`packaged_task` lets nothing escape): the failure is
stored in that task's future and is what reading the future reports; the
worker is not ended (no slot is `terminated`), it executes
`idle_thread_num++` and `work_thread_num--` (idle +1, working -1 as unsigned
ints) and is back in `wait` with the queue untouched. If the gate is open,
the worker's stop flag unset and the queue empty, a task submitted afterwards
is accepted, executed by the same worker in seven statements and its future
settles with its value, the failure staying in the first future, and the
counters are again what they were before it. -/
theorem failing_task_is_captured (g : Nat) (p : threadpool) (k : Nat) (w : Worker) (t : Task)
    (what : String) (v : Int)
    (hr : Reachable g p) (hw : p.pool[k]? = some w) (hpc : w.pc = PC.running t)
    (hb : t.body = Outcome.failure what) :
    ∃ p1 p3,
      workerStep k p = some p1 ∧
      (packaged_task_call t.body).escaped = none ∧
      p1.pool[k]? = some { w with pc := PC.finished } ∧
      future_get p1 t.id = some (Outcome.failure what) ∧
      run p1 [Event.worker k, Event.worker k] = some p3 ∧
      p3.pool[k]? = some { w with pc := PC.waiting } ∧
      (∀ w1 ∈ p3.pool, w1.pc ≠ PC.terminated) ∧
      idleNum p3 = uinc (idleNum p) ∧ workNum p3 = udec (workNum p) ∧
      p3.tasks = p.tasks ∧
      future_get p3 t.id = some (Outcome.failure what) ∧
      (hasStopedPool p = false → p.stoped[w.index]? = some false → p.tasks = [] →
        ∃ p4, (commitTask (Outcome.value v) p3).2 = Except.ok p.nextId ∧
          run (commitTask (Outcome.value v) p3).1 (List.replicate 7 (Event.worker k)) =
            some p4 ∧
          future_get p4 p.nextId = some (Outcome.value v) ∧
          future_get p4 t.id = some (Outcome.failure what) ∧
          p4.pool[k]? = some { w with pc := PC.waiting } ∧
          p4.tasks = [] ∧ idleNum p4 = idleNum p3 ∧ workNum p4 = workNum p3) := by
  obtain ⟨_, _, htp⟩ := inv_reachable hr
  have hlt := getElem?_lt hw
  have hin : t.id ∈ w.pc.pending := by simp [hpc, PC.pending]
  have hfresh : t.id ∉ p.futures.map Prod.fst := pending_not_completed htp hw hin
  have hidlt : t.id < p.nextId := (tasksOk_lt htp).2 _ (gather_mem_of_getElem hw hin)
  have s1 : workerStep k p =
      some (setPC k w PC.finished { p with futures := p.futures ++ [(t.id, t.body)] }) := by
    simp [workerStep, hw, hpc, packaged_task_call]
  have s3 := run_after_task hw hpc
  have hf1 : ((p.futures ++ [(t.id, t.body)]).find? (fun e => e.1 == t.id)).map Prod.snd =
      some (Outcome.failure what) := by
    rw [hb]; exact find_fresh _ _ _ hfresh
  have hr3 := reachable_run hr s3
  refine ⟨setPC k w PC.finished { p with futures := p.futures ++ [(t.id, t.body)] },
    { p with pool := p.pool.set k { w with pc := PC.waiting },
             futures := p.futures ++ [(t.id, t.body)],
             idle_thread_num := uinc p.idle_thread_num,
             work_thread_num := udec p.work_thread_num },
    s1, rfl, by simp [setPC, List.getElem?_set, hlt], ?_, ?_, ?_, ?_, by simp only [idleNum],
    by simp only [workNum], rfl, ?_, ?_⟩
  · simpa [future_get, setPC] using hf1
  · simpa only [run, step, s1] using s3
  · simp [List.getElem?_set, hlt]
  · exact (inv_reachable hr3).2.1.2.2.2
  · simpa [future_get] using hf1
  · intro hgate hflag hempty
    have hg : hasStopedPool
        { p with pool := p.pool.set k { w with pc := PC.waiting },
                 futures := p.futures ++ [(t.id, t.body)],
                 idle_thread_num := uinc p.idle_thread_num,
                 work_thread_num := udec p.work_thread_num } = false := hgate
    obtain ⟨q1, hq1⟩ : ∃ q1 : threadpool, q1 =
        { p with pool := p.pool.set k { w with pc := PC.waiting },
                 futures := p.futures ++ [(t.id, t.body)],
                 idle_thread_num := uinc p.idle_thread_num,
                 work_thread_num := udec p.work_thread_num,
                 tasks := [{ id := p.nextId, body := Outcome.value v }],
                 nextId := p.nextId + 1 } := ⟨_, rfl⟩
    have hc1 : (commitTask (Outcome.value v)
        { p with pool := p.pool.set k { w with pc := PC.waiting },
                 futures := p.futures ++ [(t.id, t.body)],
                 idle_thread_num := uinc p.idle_thread_num,
                 work_thread_num := udec p.work_thread_num }).1 = q1 := by
      have hg2 : p.pool_stoped = false := hgate
      rw [hq1]; simp [commitTask, hasStopedPool, hg2, hempty]
    have h7 := @run_one_task k q1 { w with pc := PC.waiting }
      { id := p.nextId, body := Outcome.value v } []
      (by rw [hq1]; simp [List.getElem?_set, hlt]) rfl (by rw [hq1]; exact hflag)
      (by rw [hq1])
    have hnew : p.nextId ∉ (p.futures ++ [(t.id, t.body)]).map Prod.fst := by
      simp only [List.map_append, List.map_cons, List.map_nil, List.mem_append,
        List.mem_singleton, not_or]
      refine ⟨fun hc => ?_, by omega⟩
      have := completed_lt htp _ hc
      omega
    rw [hc1]
    refine ⟨_, by simp [commitTask, hg], h7, ?_, ?_, ?_, by simp only, ?_, ?_⟩
    · rw [hq1]; simpa [future_get] using find_fresh _ _ (Outcome.value v) hnew
    · rw [hq1]; simpa [future_get] using find_keep _ (p.nextId, Outcome.value v) _ _ hf1
    · rw [hq1]; simp [List.getElem?_set, hlt]
    · rw [hq1]; simp only [idleNum, uinc, udec_eq, UINT]; omega
    · rw [hq1]; simp only [workNum, uinc, udec_eq, UINT]; omega


theorem failing_task_is_captured_witness :
    ∃ p1 p3,
      workerStep 0 poolFailing = some p1 ∧
      (packaged_task_call (Outcome.failure "division by zero")).escaped = none ∧
      p1.pool[0]? = some { index := 0, pc := PC.finished } ∧
      future_get p1 0 = some (Outcome.failure "division by zero") ∧
      run p1 [Event.worker 0, Event.worker 0] = some p3 ∧
      p3.pool[0]? = some { index := 0, pc := PC.waiting } ∧
      (∀ w1 ∈ p3.pool, w1.pc ≠ PC.terminated) ∧
      idleNum p3 = uinc (idleNum poolFailing) ∧ workNum p3 = udec (workNum poolFailing) ∧
      p3.tasks = poolFailing.tasks ∧
      future_get p3 0 = some (Outcome.failure "division by zero") ∧
      (hasStopedPool poolFailing = false → poolFailing.stoped[0]? = some false →
        poolFailing.tasks = [] →
        ∃ p4, (commitTask (Outcome.value 1) p3).2 = Except.ok poolFailing.nextId ∧
          run (commitTask (Outcome.value 1) p3).1 (List.replicate 7 (Event.worker 0)) =
            some p4 ∧
          future_get p4 poolFailing.nextId = some (Outcome.value 1) ∧
          future_get p4 0 = some (Outcome.failure "division by zero") ∧
          p4.pool[0]? = some { index := 0, pc := PC.waiting } ∧
          p4.tasks = [] ∧ idleNum p4 = idleNum p3 ∧ workNum p4 = workNum p3) :=
  failing_task_is_captured 0 poolFailing 0
    { index := 0, pc := PC.running { id := 0, body := Outcome.failure "division by zero" } }
    { id := 0, body := Outcome.failure "division by zero" } "division by zero" 1
    ⟨failingSchedule, rfl⟩ rfl rfl rfl

/-- C5 (amended): take a pool reachable from a construction with
`idle_thread_num` = 0, with at most 2^32 slots, in which every worker whose
stop flag is set has already left its loop, and a call `resize(target)` whose
alive count, the `unsigned int` sum of the two values that line 139 loads, is
the number of live workers (no worker updates a counter between the two
loads, none is between its two counter updates at a load); workers may
execute statements between the loads and the flag loop. If
t = min(max(target, 1), 2048) is smaller than that alive count, then after
the call and any schedule of worker statements at whose end every flagged
worker has left its loop, the number of live workers is t,
`idleNum() + workNum()` differs from t only by the workers between their two
counter updates, and it equals t when there is none. -/
theorem resize_down_reaches_target (p0 p q : threadpool) (target i w : Nat)
    (es0 es : List Event)
    (hr : Reachable 0 p0) (hlen : p0.pool.length ≤ UINT)
    (hpend : stopsObserved p0) (halive : (i + w) % UINT = liveNum p0)
    (ht : min (max target 1) 2048 < (i + w) % UINT)
    (hes0 : ∀ e ∈ es0, isWorkerEvent e = true) (hrun0 : run p0 es0 = some p)
    (hes : ∀ e ∈ es, isWorkerEvent e = true)
    (hrun : run (resizeWith i w target p) es = some q)
    (hobs : stopsObserved q) :
    liveNum p = liveNum p0 ∧
    liveNum q = min (max target 1) 2048 ∧
    idleNum q + workNum q + sumBy PC.decdC q.pool =
      min (max target 1) 2048 + sumBy PC.incdC q.pool ∧
    (sumBy PC.decdC q.pool = 0 → sumBy PC.incdC q.pool = 0 →
      idleNum q + workNum q = min (max target 1) 2048) := by
  rw [← checkSize_eq target] at ht ⊢
  have hle := checkSize_le target
  obtain ⟨_, hsp0, _⟩ := inv_reachable hr
  have hrp := reachable_run hr hrun0
  obtain ⟨_, hsp, _⟩ := inv_reachable hrp
  have hk0 := workerRun_keeps hrun0 hes0
  have hobs_p := stopsObserved_workerRun hrun0 hes0 hpend
  have hlen_p : p.pool.length ≤ UINT := by rw [hk0.2.2.1]; exact hlen
  have hlive_p0 := liveNum_eq_unset hsp0 hlen hpend
  have hlive_p := liveNum_eq_unset hsp hlen_p hobs_p
  have hsame : liveNum p = liveNum p0 := by
    rw [hlive_p, hlive_p0]; simp only [unsetFlags, hk0.1]
  have hr1 : Reachable 0 (resizeWith i w target p) :=
    @reachable_run 0 p (resizeWith i w target p) [Event.resizeRacing i w target] hrp rfl
  have hrq := reachable_run hr1 hrun
  obtain ⟨⟨c1, c2⟩, hsq, _⟩ := inv_reachable hrq
  have hk := workerRun_keeps hrun hes
  have hres := resizeWith_shrink i w target p ht
  have hq_len : q.pool.length ≤ UINT := by rw [hk.2.2.1, hres]; exact hlen_p
  have hlive_q := liveNum_eq_unset hsq hq_len hobs
  have hcount : unsetFlags q = _checkSize_ target := by
    simp only [unsetFlags, hk.1, hres]
    rw [stopLoop_count _ _ _ (by omega)]
    simp only [unsetFlags] at hlive_p
    omega
  have hlq : liveNum q = _checkSize_ target := by rw [hlive_q, hcount]
  have hb := sum_balance q.pool hsq.2.2.2
  simp only [liveNum] at hlq
  have key : idleNum q + workNum q + sumBy PC.decdC q.pool =
      _checkSize_ target + sumBy PC.incdC q.pool := by
    have hN : sumBy PC.incdC q.pool ≤ sumBy PC.liveC q.pool :=
      sumBy_mono _ _ incdC_le_liveC _
    simp only [idleNum, workNum, c1, c2, UINT]
    omega
  exact ⟨hsame, hlq, key, fun h1 h2 => by omega⟩


theorem resize_down_reaches_target_witness :
    ∃ p q, run poolFourOneTask (List.replicate 7 (Event.worker 0)) = some p ∧
      run (resizeWith 4 0 2 p) [Event.worker 0, Event.worker 1] = some q ∧
      liveNum p = liveNum poolFourOneTask ∧
      liveNum q = min (max 2 1) 2048 ∧
      idleNum q + workNum q + sumBy PC.decdC q.pool =
        min (max 2 1) 2048 + sumBy PC.incdC q.pool ∧
      (sumBy PC.decdC q.pool = 0 → sumBy PC.incdC q.pool = 0 →
        idleNum q + workNum q = min (max 2 1) 2048) :=
  ⟨_, _, rfl, rfl,
    resize_down_reaches_target poolFourOneTask _ _ 2 4 0 (List.replicate 7 (Event.worker 0))
      [Event.worker 0, Event.worker 1]
      ⟨[Event.begin 4 false, Event.commitTask (Outcome.value 1)], rfl⟩ (by decide)
      (by unfold stopsObserved; decide) (by decide) (by decide) (by decide) rfl (by decide) rfl
      (by unfold stopsObserved; decide)⟩

/-- C5, counterexample: after `begin(4); resize(2)` two flags are set but
all four workers are still parked and counted, so the alive count is 4. A
second `resize(2)` sees 2 < 4 and sets the two remaining flags; once the four
flagged workers have left, `idleNum() + workNum()` is 0, not 2. -/
theorem resize_twice_overshoots :
    ∃ q, run (threadpool_ctor 0) [Event.begin 4 false, Event.resize 2] = some poolShrinking ∧
      min (max 2 1) 2048 < idleNum poolShrinking + workNum poolShrinking ∧
      run (resize 2 poolShrinking)
        [Event.worker 0, Event.worker 1, Event.worker 2, Event.worker 3] = some q ∧
      (∀ w ∈ q.pool, q.stoped[w.index]? = some true → w.pc = PC.exited) ∧
      idleNum q + workNum q = 0 ∧
      ¬ (idleNum q + workNum q = min (max 2 1) 2048) :=
  ⟨_, rfl, by decide, rfl, by decide⟩

/-- Why the amended C5 asks for an alive count equal to the number of live
workers: after `begin(3)` and one `commitTask`, `resize(2)` loads
`idle_thread_num` = 3, the woken worker executes line 72, and `resize` loads
`work_thread_num` = 1. The alive count is 4 for three live workers, two
workers are flagged, and one worker stays for target 2. -/
theorem resize_between_loads :
    ∃ p q, run (threadpool_ctor 0) racingLoads = some p ∧ liveNum p = 3 ∧
      run (resizeWith 3 1 2 p)
        [Event.worker 0, Event.worker 0, Event.worker 0, Event.worker 0, Event.worker 0,
          Event.worker 1] = some q ∧
      stopsObserved q ∧ liveNum q = 1 ∧ idleNum q + workNum q = 1 :=
  ⟨_, _, rfl, by decide, rfl, by unfold stopsObserved; decide, by decide⟩


end CQThreadPool
